import Mathlib

/-!
Verification development for the code-assistant backend
(`src/backend/app/main.py`).

The Python source is shallowly embedded:
* Python `str` is `String` (a list of `Char`); Python's whitespace
  classification and `splitlines` boundaries are modelled explicitly.
* `time.time()` timestamps are modelled as `ℚ` (the claims only use
  ordering and subtraction of times).
* the process-wide `dict`-backed `TTLCache` becomes an insertion-ordered
  association list (Python dicts preserve insertion order; updating an
  existing key keeps its position, `pop` removes it, a fresh key is
  appended at the end).  `TTLCache.set` returns `none` in the situation
  where the Python code would raise `ValueError` (`min` of an empty
  dict), so that totality claims can be stated.
* each regex used by the source is translated into an explicit matcher
  over `List Char` with the same match semantics (greedy classes whose
  follow-set is disjoint are taken by maximal munch; genuinely
  backtracking positions are explored by disjunction).  Character
  classes `\w`, `[A-Za-z_]` are modelled at ASCII, which covers the
  alphabet the service's heuristics are aimed at.
* the two cacheable HTTP routes are modelled as pure state transformers
  taking the outcome of the `hf_chat_completion` gateway call as a
  parameter; `hash` is an arbitrary function parameter `h`.
-/

set_option autoImplicit false

variable {α : Type}

/-! ## Python character classes -/

/-- Whitespace as recognised by Python's `str.strip` / `str.rstrip` and
by `\s` in the `re` module (Unicode whitespace). -/
def pyIsSpace (c : Char) : Bool :=
  c == ' ' || c == '\t' || c == '\n' || c == '\r' ||
  c == Char.ofNat 0x0b || c == Char.ofNat 0x0c ||
  c == Char.ofNat 0x1c || c == Char.ofNat 0x1d ||
  c == Char.ofNat 0x1e || c == Char.ofNat 0x1f ||
  c == Char.ofNat 0x85 || c == Char.ofNat 0xa0 ||
  c == Char.ofNat 0x1680 ||
  (0x2000 ≤ c.toNat && c.toNat ≤ 0x200a) ||
  c == Char.ofNat 0x2028 || c == Char.ofNat 0x2029 ||
  c == Char.ofNat 0x202f || c == Char.ofNat 0x205f ||
  c == Char.ofNat 0x3000

/-- Line boundaries of Python's `str.splitlines`. -/
def isLineBreak (c : Char) : Bool :=
  c == '\n' || c == '\r' ||
  c == Char.ofNat 0x0b || c == Char.ofNat 0x0c ||
  c == Char.ofNat 0x1c || c == Char.ofNat 0x1d ||
  c == Char.ofNat 0x1e || c == Char.ofNat 0x85 ||
  c == Char.ofNat 0x2028 || c == Char.ofNat 0x2029

/-- ASCII model of the regex word class `\w`. -/
def isWordChar (c : Char) : Bool :=
  c.isAlpha || c.isDigit || c == '_'

/-! ## Python string primitives used by the source -/

/-- Python `code.replace("\t", "    ")`. -/
def replaceTabs : List Char → List Char
  | [] => []
  | c :: rest =>
    if c = '\t' then ' ' :: ' ' :: ' ' :: ' ' :: replaceTabs rest
    else c :: replaceTabs rest

/-- Python `str.splitlines()`: splits at every line boundary, treats
`"\r\n"` as a single boundary, and produces no trailing empty line for a
terminal boundary (`"".splitlines() == []`). -/
def pySplitlines : List Char → List (List Char)
  | [] => []
  | [c] => if isLineBreak c then [[]] else [[c]]
  | c :: d :: rest =>
    if c = '\r' ∧ d = '\n' then [] :: pySplitlines rest
    else if isLineBreak c then [] :: pySplitlines (d :: rest)
    else
      match pySplitlines (d :: rest) with
      | [] => [[c]]
      | l :: ls => (c :: l) :: ls

/-- Python `str.lstrip()`. -/
def pyLstrip (l : List Char) : List Char :=
  l.dropWhile pyIsSpace

/-- Python `str.rstrip()`. -/
def pyRstrip (l : List Char) : List Char :=
  (l.reverse.dropWhile pyIsSpace).reverse

/-- Python `str.strip()`. -/
def pyStrip (l : List Char) : List Char :=
  pyLstrip (pyRstrip l)

/-- Python `"\n".join(lines)`. -/
def joinNl : List (List Char) → List Char
  | [] => []
  | [l] => l
  | l :: ls => l ++ '\n' :: joinNl ls

/-! ## Normalizer: `simple_auto_format` -/

/-- `simple_auto_format` from `main.py`:
`"\n".join(line.rstrip() for line in code.replace("\t","    ").splitlines()).strip() + "\n"`. -/
def simple_auto_format (code : String) : String :=
  String.mk
    (pyStrip (joinNl ((pySplitlines (replaceTabs code.data)).map pyRstrip)) ++ ['\n'])

/-- Split at `'\n'` only, keeping every (possibly empty) segment:
the `'\n'`-segments of a text whose only line boundaries are `'\n'`. -/
def splitOnNl : List Char → List (List Char)
  | [] => [[]]
  | c :: rest =>
    if c = '\n' then [] :: splitOnNl rest
    else
      match splitOnNl rest with
      | [] => [[c]]
      | l :: ls => (c :: l) :: ls

/-- Drop trailing empty lines. -/
def dropTrailEmpty : List (List Char) → List (List Char)
  | [] => []
  | l :: rest =>
    match dropTrailEmpty rest with
    | [] => if l.isEmpty then [] else [l]
    | m :: ms => l :: m :: ms

/-- Drop leading empty lines and left-strip the first remaining line. -/
def lstripLead : List (List Char) → List (List Char)
  | [] => []
  | [] :: rest => lstripLead rest
  | l :: rest => pyLstrip l :: rest

/-- The normalizer as claim C3 words it: tabs become four spaces, every
line is right-stripped, leading and trailing blank lines — and nothing
else from the remaining lines' content — are removed from the whole
text, and exactly one trailing newline is appended. -/
def claimedFormat (code : String) : String :=
  let lines := (pySplitlines (replaceTabs code.data)).map pyRstrip
  String.mk (joinNl ((lines.dropWhile List.isEmpty).reverse.dropWhile List.isEmpty).reverse ++ ['\n'])

/-- The behaviour `simple_auto_format` actually has: additionally the
leading whitespace of the first surviving line is removed (Python's
`str.strip` strips characters, not lines). -/
def amendedFormat (code : String) : String :=
  String.mk
    (joinNl (lstripLead (dropTrailEmpty
      ((pySplitlines (replaceTabs code.data)).map pyRstrip))) ++ ['\n'])

/-! ## Duplicate-function detector: `find_duplicate_functions`

The source scans with
`re.compile(r"def\s+([A-Za-z_]\w*)\s*\([^)]*\)\s*:\s*([\s\S]*?)(?=^def\s+|\Z)", re.M).findall(code)`.
The pattern is translated exactly: every greedy class below is followed
by a character outside the class, so maximal munch coincides with the
backtracking semantics; the lazy body extends to the first position
where the `(?=^def\s+|\Z)` lookahead holds. -/

/-- The lookahead `(?=^def\s+)`: position is at a line start (`re.M`:
start of string or just after `'\n'`) and `def` plus one whitespace
character follows. -/
def lookaheadDef (atLineStart : Bool) (s : List Char) : Bool :=
  atLineStart &&
    match s with
    | 'd' :: 'e' :: 'f' :: c :: _ => pyIsSpace c
    | _ => false

/-- Lazy body group `([\s\S]*?)` up to the lookahead (or `\Z`).
The boolean tracks whether the current position follows a `'\n'`. -/
def takeBody : Bool → List Char → List Char × List Char
  | _, [] => ([], [])
  | atLS, c :: rest =>
    if lookaheadDef atLS (c :: rest) then ([], c :: rest)
    else
      let p := takeBody (c == '\n') rest
      (c :: p.1, p.2)

/-- One attempt to match the function pattern at the current position.
Returns the name group, the body group and the remaining input. -/
def tryMatchDef (s : List Char) : Option (List Char × List Char × List Char) :=
  match s with
  | 'd' :: 'e' :: 'f' :: r0 =>
    let sp := r0.takeWhile pyIsSpace
    let r1 := r0.dropWhile pyIsSpace
    if sp.isEmpty then none
    else
      match r1 with
      | c :: r2 =>
        if c.isAlpha || c == '_' then
          let nm := r2.takeWhile isWordChar
          let r3 := r2.dropWhile isWordChar
          let r4 := r3.dropWhile pyIsSpace
          match r4 with
          | '(' :: r5 =>
            let r6 := r5.dropWhile (fun d => d != ')')
            match r6 with
            | ')' :: r7 =>
              let r8 := r7.dropWhile pyIsSpace
              match r8 with
              | ':' :: r9 =>
                let sp2 := r9.takeWhile pyIsSpace
                let r10 := r9.dropWhile pyIsSpace
                let atLS :=
                  match sp2.getLast? with
                  | some d => d == '\n'
                  | none => false
                let p := takeBody atLS r10
                some (c :: nm, p.1, p.2)
              | _ => none
            | _ => none
          | _ => none
        else none
      | [] => none
  | _ => none

/-- `re.findall` scan: try a match at every position, left to right,
non-overlapping.  Fuel is the length of the input; each step consumes at
least one character. -/
def scanDefsAux : Nat → List Char → List (List Char × List Char)
  | 0, _ => []
  | _, [] => []
  | fuel + 1, c :: rest =>
    match tryMatchDef (c :: rest) with
    | some (name, body, after) => (name, body) :: scanDefsAux fuel after
    | none => scanDefsAux fuel rest

/-- All `(name, body)` matches of the function pattern in `code`. -/
def scanDefs (code : String) : List (String × String) :=
  (scanDefsAux code.data.length code.data).map
    (fun p => (String.mk p.1, String.mk p.2))

/-- `re.sub(r"\s+", "", body)`: remove every whitespace character. -/
def normBody (body : String) : String :=
  String.mk (body.data.filter (fun c => !pyIsSpace c))

/-- The `bodies_map` loop of `find_duplicate_functions`, over an
association list from normalized body to first-seen name. -/
def collectDupsAux : List (String × String) → List (String × String) →
    List (String × String)
  | _, [] => []
  | seen, (name, body) :: rest =>
    let key := normBody body
    match seen.lookup key with
    | some first =>
      if first ≠ name then (first, name) :: collectDupsAux seen rest
      else collectDupsAux seen rest
    | none => collectDupsAux ((key, name) :: seen) rest

/-- `find_duplicate_functions` from `main.py`. -/
def find_duplicate_functions (code : String) : List (String × String) :=
  collectDupsAux [] (scanDefs code)

/-! ## Lint heuristics: `lint_like_findings` -/

/-- Does `pat` occur as a contiguous substring (Python `pat in code`)? -/
def containsSub (pat : List Char) : List Char → Bool
  | [] => pat.isPrefixOf []
  | c :: rest => pat.isPrefixOf (c :: rest) || containsSub pat rest

/-- Tail of `print\(.+?\)` after `print(`: at least one non-newline
character and then a `)` (with only non-newline characters before it). -/
def closeAfterOne : Bool → List Char → Bool
  | _, [] => false
  | ge1, c :: rest => (ge1 && c == ')') || (c != '\n' && closeAfterOne true rest)

/-- `re.search(r"print\(.+?\)", code)`. -/
def printSearch : List Char → Bool
  | [] => false
  | c :: rest =>
    (List.isPrefixOf ([ 'p', 'r', 'i', 'n', 't', '(' ]) (c :: rest) &&
      closeAfterOne false (rest.drop 5)) ||
    printSearch rest

/-- Tail of `except\s*:\s*pass` after `except`. -/
def exceptColonPass (s : List Char) : Bool :=
  match s.dropWhile pyIsSpace with
  | ':' :: r => List.isPrefixOf ([ 'p', 'a', 's', 's' ]) (r.dropWhile pyIsSpace)
  | _ => false

/-- `re.search(r"except\s*:\s*pass", code)`. -/
def exceptSearch : List Char → Bool
  | [] => false
  | c :: rest =>
    (List.isPrefixOf ([ 'e', 'x', 'c', 'e', 'p', 't' ]) (c :: rest) &&
      exceptColonPass (rest.drop 5)) ||
    exceptSearch rest

/-- One alternative of `==\s*None|None\s*==` at the current position. -/
def noneCmpAt (s : List Char) : Bool :=
  (match s with
   | '=' :: '=' :: r =>
     List.isPrefixOf ([ 'N', 'o', 'n', 'e' ]) (r.dropWhile pyIsSpace)
   | _ => false) ||
  (match s with
   | 'N' :: 'o' :: 'n' :: 'e' :: r =>
     List.isPrefixOf ([ '=', '=' ]) (r.dropWhile pyIsSpace)
   | _ => false)

/-- `re.search(r"==\s*None|None\s*==", code)`. -/
def noneCmpSearch : List Char → Bool
  | [] => false
  | c :: rest => noneCmpAt (c :: rest) || noneCmpSearch rest

/-- Suffix `pass\b` of the stub pattern: `pass` followed by a
non-word character or the end of input. -/
def startsWithPassB (s : List Char) : Bool :=
  List.isPrefixOf ([ 'p', 'a', 's', 's' ]) s &&
    (match s.drop 4 with
     | [] => true
     | d :: _ => !isWordChar d)

/-- Segment `\s*\n\s*pass\b` of the stub pattern; `seenNl` records
whether a `'\n'` has been consumed already.  All splits of the
whitespace run are explored, matching the backtracking semantics. -/
def matchNlPass (seenNl : Bool) : List Char → Bool
  | [] => false
  | c :: rest =>
    (seenNl && startsWithPassB (c :: rest)) ||
    (pyIsSpace c && matchNlPass (seenNl || c == '\n') rest)

/-- Segment `[^)]*\):\s*\n\s*pass\b` of the stub pattern. -/
def matchAfterParen (s : List Char) : Bool :=
  match s.dropWhile (fun d => d != ')') with
  | a :: b :: r2 => a == ')' && b == ':' && matchNlPass false r2
  | _ => false

/-- Segment `.+\([^)]*\):\s*\n\s*pass\b` of the stub pattern; `ge1`
records whether `.+` has consumed at least one character. -/
def matchDotsOpen (ge1 : Bool) : List Char → Bool
  | [] => false
  | c :: rest =>
    (ge1 && c == '(' && matchAfterParen rest) ||
    (c != '\n' && matchDotsOpen true rest)

/-- Segment `\s+.+\([^)]*\):\s*\n\s*pass\b` of the stub pattern; `ge1`
records whether `\s+` has consumed at least one character. -/
def matchSpacesDots (ge1 : Bool) : List Char → Bool
  | [] => false
  | c :: rest =>
    (ge1 && matchDotsOpen false (c :: rest)) ||
    (pyIsSpace c && matchSpacesDots true rest)

/-- Declarative reading of `def\s+.+\([^)]*\):\s*\n\s*pass\b`: somewhere
in the text, `def`, some whitespace, a non-empty run of non-newline
characters, `(`, characters other than `)`, then `):`, whitespace
containing at least one newline, and `pass` at a word boundary. -/
def StubPattern (s : List Char) : Prop :=
  ∃ pre w d inner ws post,
    s = pre ++ ('d' :: 'e' :: 'f' :: w) ++ d ++ ('(' :: inner) ++
        (')' :: ':' :: ws) ++ ('p' :: 'a' :: 's' :: 's' :: post) ∧
    w ≠ [] ∧ (∀ c ∈ w, pyIsSpace c = true) ∧
    d ≠ [] ∧ (∀ c ∈ d, c ≠ '\n') ∧
    (∀ c ∈ inner, c ≠ ')') ∧
    (∀ c ∈ ws, pyIsSpace c = true) ∧ '\n' ∈ ws ∧
    (∀ c, post.head? = some c → isWordChar c = false)

/-- `re.search(r"def\s+.+\([^)]*\):\s*\n\s*pass\b", code)`. -/
def stubSearch : List Char → Bool
  | [] => false
  | c :: rest =>
    (List.isPrefixOf ([ 'd', 'e', 'f' ]) (c :: rest) &&
      matchSpacesDots false (rest.drop 2)) ||
    stubSearch rest

/-- `re.search(r"\s+$", code, re.M)`: some whitespace character stands
immediately before a `'\n'` or at the end of the text. -/
def trailingWsSearch : List Char → Bool
  | [] => false
  | [c] => pyIsSpace c
  | c :: d :: rest => (pyIsSpace c && d == '\n') || trailingWsSearch (d :: rest)

/-- `lint_like_findings` from `main.py`: seven independent checks, in
source order, each contributing one fixed sentence. -/
def lint_like_findings (code : String) : List String :=
  let l := code.data
  (if l.contains '\t' then [ "Use spaces instead of tabs (PEP 8)." ] else []) ++
  (if printSearch l && !containsSub ([ 'l', 'o', 'g', 'g', 'i', 'n', 'g' ]) l then
    [ "Prefer `logging` over bare `print` for production code." ] else []) ++
  (if exceptSearch l then
    [ "Avoid bare `except: pass`; catch specific exceptions and handle them." ] else []) ++
  (if noneCmpSearch l then
    [ "Use `is None` / `is not None` instead of `== None`." ] else []) ++
  (if stubSearch l then
    [ "Stub functions detected; implement or document TODOs." ] else []) ++
  (if (pySplitlines l).any (fun ln => decide (120 < ln.length)) then
    [ "Some lines exceed 120 characters; consider wrapping." ] else []) ++
  (if trailingWsSearch l then
    [ "Trailing whitespace found; remove for clean diffs." ] else [])

/-! ## Analysis orchestrator: `analyze` -/

/-- One refactor suggestion of the `/api/analyze` response. -/
structure Refactor where
  symbol : String
  suggestion : String
deriving DecidableEq, Repr

/-- The `/api/analyze` response. -/
structure AnalysisResult where
  formatted : String
  findings : List String
  refactors : List Refactor
deriving DecidableEq, Repr

/-- The generic entry appended when no duplicate pair was found. -/
def genericRefactor : Refactor :=
  Refactor.mk ("General")
    ("No duplicate functions detected. Consider extracting shared logic if future duplication appears.")

/-- The suggestion built for one duplicate pair. -/
def dupRefactor (p : String × String) : Refactor :=
  Refactor.mk (p.1 ++ " & " ++ p.2)
    ("Functions `" ++ p.1 ++ "` and `" ++ p.2 ++
      "` have identical bodies. Extract a single helper and reuse.")

/-- The `analyze` route body from `main.py`. -/
def analyze (code : String) : AnalysisResult :=
  let refactors := (find_duplicate_functions code).map dupRefactor
  AnalysisResult.mk (simple_auto_format code) (lint_like_findings code)
    (if refactors.isEmpty then [genericRefactor] else refactors)

/-! ## TTL cache -/

/-- The in-memory TTL cache of `main.py`: the `dict` is an
insertion-ordered association list of `(key, (createdAt, value))`. -/
structure TTLCache (α : Type) where
  ttl : ℚ
  max_items : ℕ
  store : List (String × ℚ × α)
deriving DecidableEq

/-- Freshly constructed cache (`TTLCache(ttl_seconds, max_items)`). -/
def TTLCache.init (ttl_seconds : ℚ) (max_items : ℕ) : TTLCache α :=
  TTLCache.mk ttl_seconds max_items []

/-- Python `dict` lookup `store.get(key)`. -/
def lookupD : List (String × ℚ × α) → String → Option (ℚ × α)
  | [], _ => none
  | (k, p) :: rest, key => if k = key then some p else lookupD rest key

/-- Python `store[key] = value`: updating an existing key keeps its
position; a fresh key is appended at the end. -/
def dictSet : List (String × ℚ × α) → String → ℚ × α → List (String × ℚ × α)
  | [], key, p => [(key, p)]
  | (k, q) :: rest, key, p =>
    if k = key then (key, p) :: rest else (k, q) :: dictSet rest key p

/-- Python `store.pop(key, None)`. -/
def dictErase : List (String × ℚ × α) → String → List (String × ℚ × α)
  | [], _ => []
  | (k, q) :: rest, key =>
    if k = key then rest else (k, q) :: dictErase rest key

/-- `min(self.store, key=lambda k: self.store[k][0])`: Python's `min`
keeps the first element attaining the minimum (ties update nothing). -/
def minTsKeyAux (bk : String) (bt : ℚ) : List (String × ℚ × α) → String
  | [] => bk
  | (k, t, _) :: rest =>
    if t < bt then minTsKeyAux k t rest else minTsKeyAux bk bt rest

/-- `TTLCache.get` from `main.py`.  Returns the optional value and the
cache after the call (lazy expiration may remove the entry).  The store
holds non-empty response dicts, so Python's `if not item` truthiness
test coincides with the `Option` match. -/
def TTLCache.get (c : TTLCache α) (now : ℚ) (key : String) :
    Option α × TTLCache α :=
  match lookupD c.store key with
  | none => (none, c)
  | some (ts, value) =>
    if now - ts > c.ttl then
      (none, TTLCache.mk c.ttl c.max_items (dictErase c.store key))
    else (some value, c)

/-- `TTLCache.set` from `main.py`.  `none` models the `ValueError` that
Python's `min` raises on an empty store (reachable only when
`max_items = 0`); the store is unmodified in that case. -/
def TTLCache.set (c : TTLCache α) (now : ℚ) (key : String) (value : α) :
    Option (TTLCache α) :=
  if c.max_items ≤ c.store.length then
    match c.store with
    | [] => none
    | e :: rest =>
      let oldestKey := minTsKeyAux e.1 e.2.1 rest
      some (TTLCache.mk c.ttl c.max_items
        (dictSet (dictErase c.store oldestKey) key (now, value)))
  else
    some (TTLCache.mk c.ttl c.max_items (dictSet c.store key (now, value)))

/-- A sequence of `set` calls, each with its own clock value.  A call in
which Python would raise (`max_items = 0`) leaves the store unchanged. -/
def TTLCache.runSets (c : TTLCache α) : List (ℚ × String × α) → TTLCache α
  | [] => c
  | (t, k, v) :: rest => TTLCache.runSets ((c.set t k v).getD c) rest

/-! ## Cached model routes: `/api/explain` and `/api/infer` -/

/-- Request payload of `/api/explain`. -/
structure ExplainReq where
  code : String
  model : String
deriving DecidableEq

/-- Request payload of `/api/infer`. -/
structure InferReq where
  model : String
  prompt : String
deriving DecidableEq

/-- Failure modes of the `hf_chat_completion` gateway call: token not
configured, non-success status after the single retry, or an
uninterpretable response shape. -/
inductive GatewayError where
  | unconfigured
  | remoteError (msg : String)
  | malformedResponse
deriving DecidableEq

/-- Cached response objects (`{"explanation": text}` / `{"text": text}`);
both are non-empty dicts, hence truthy in Python. -/
inductive Resp where
  | explanation (text : String)
  | inferText (text : String)
deriving DecidableEq

/-- Outcome of a route invocation. -/
inductive RouteResult where
  | ok (r : Resp)
  | gatewayFailed (e : GatewayError)
  | cacheSetFailed
deriving DecidableEq

/-- `f"explain:{req.model}:{hash(req.code)}"`; `h` stands for Python's
`hash`. -/
def explainCacheKey (h : String → Int) (req : ExplainReq) : String :=
  "explain:" ++ req.model ++ ":" ++ toString (h req.code)

/-- `f"infer:{req.model}:{hash(req.prompt)}"`. -/
def inferCacheKey (h : String → Int) (req : InferReq) : String :=
  "infer:" ++ req.model ++ ":" ++ toString (h req.prompt)

/-- The `/api/explain` route body: cache lookup, then the gateway call
(whose outcome is the parameter `gw`), then the cache write. -/
def explainRoute (h : String → Int) (c : TTLCache Resp) (now : ℚ)
    (req : ExplainReq) (gw : Except GatewayError String) :
    RouteResult × TTLCache Resp :=
  let key := explainCacheKey h req
  match c.get now key with
  | (some v, c1) => (RouteResult.ok v, c1)
  | (none, c1) =>
    match gw with
    | Except.error e => (RouteResult.gatewayFailed e, c1)
    | Except.ok text =>
      match c1.set now key (Resp.explanation text) with
      | some c2 => (RouteResult.ok (Resp.explanation text), c2)
      | none => (RouteResult.cacheSetFailed, c1)

/-- The `/api/infer` route body. -/
def inferRoute (h : String → Int) (c : TTLCache Resp) (now : ℚ)
    (req : InferReq) (gw : Except GatewayError String) :
    RouteResult × TTLCache Resp :=
  let key := inferCacheKey h req
  match c.get now key with
  | (some v, c1) => (RouteResult.ok v, c1)
  | (none, c1) =>
    match gw with
    | Except.error e => (RouteResult.gatewayFailed e, c1)
    | Except.ok text =>
      match c1.set now key (Resp.inferText text) with
      | some c2 => (RouteResult.ok (Resp.inferText text), c2)
      | none => (RouteResult.cacheSetFailed, c1)

/-! ## Helper lemmas: the store as an insertion-ordered dict -/

theorem lookupD_dictSet_self (s : List (String × ℚ × α)) (key : String) (p : ℚ × α) :
    lookupD (dictSet s key p) key = some p := by
  induction s with
  | nil => simp [dictSet, lookupD]
  | cons e rest ih =>
    obtain ⟨k, q⟩ := e
    by_cases hk : k = key
    · simp [dictSet, hk, lookupD]
    · simp [dictSet, hk, lookupD, ih]

theorem length_dictSet_le (s : List (String × ℚ × α)) (key : String) (p : ℚ × α) :
    (dictSet s key p).length ≤ s.length + 1 := by
  induction s with
  | nil => simp [dictSet]
  | cons e rest ih =>
    obtain ⟨k, q⟩ := e
    by_cases hk : k = key
    all_goals simp [dictSet, hk]
    all_goals omega

theorem length_dictErase_of_mem (s : List (String × ℚ × α)) (key : String) (p : ℚ × α)
    (h : lookupD s key = some p) : (dictErase s key).length + 1 = s.length := by
  induction s with
  | nil => simp [lookupD] at h
  | cons e rest ih =>
    obtain ⟨k, q⟩ := e
    by_cases hk : k = key
    · simp [dictErase, hk]
    · simp [lookupD, hk] at h
      simp [dictErase, hk, ih h]

theorem lookupD_of_split (l1 l2 : List (String × ℚ × α)) (key : String) (p : ℚ × α) :
    ∃ q, lookupD (l1 ++ (key, p) :: l2) key = some q := by
  induction l1 with
  | nil => exact ⟨p, by simp [lookupD]⟩
  | cons e rest ih =>
    obtain ⟨k, q⟩ := e
    by_cases hk : k = key
    · exact ⟨q, by simp [lookupD, hk]⟩
    · simpa [lookupD, hk] using ih

theorem dictErase_split_of_nodup (l1 l2 : List (String × ℚ × α)) (key : String) (p : ℚ × α)
    (h : ((l1 ++ (key, p) :: l2).map Prod.fst).Nodup) :
    dictErase (l1 ++ (key, p) :: l2) key = l1 ++ l2 := by
  induction l1 with
  | nil => simp [dictErase]
  | cons e rest ih =>
    obtain ⟨k, q⟩ := e
    rw [List.cons_append, List.map_cons, List.nodup_cons] at h
    have hk : k ≠ key := fun hkk => h.1 (by simp [hkk])
    rw [List.cons_append]
    show (if k = key then rest ++ (key, p) :: l2
      else (k, q) :: dictErase (rest ++ (key, p) :: l2) key) = _
    rw [if_neg hk, ih h.2, List.cons_append]

/-- Python's `min` over the store returns the first entry attaining the
minimal timestamp. -/
theorem minTsKeyAux_spec (rest : List (String × ℚ × α)) (bk : String) (bt : ℚ) :
    (minTsKeyAux bk bt rest = bk ∧ ∀ e ∈ rest, bt ≤ e.2.1) ∨
    (∃ l1 t v l2, rest = l1 ++ (minTsKeyAux bk bt rest, t, v) :: l2 ∧ t < bt ∧
      (∀ e ∈ l1, t < e.2.1) ∧ (∀ e ∈ l2, t ≤ e.2.1)) := by
  induction rest generalizing bk bt with
  | nil => exact Or.inl ⟨rfl, by simp⟩
  | cons e rest ih =>
    obtain ⟨k, t0, v0⟩ := e
    by_cases hlt : t0 < bt
    · rcases ih k t0 with ⟨heq, hall⟩ | ⟨l1, t, v, l2, hsplit, hless, hl1, hl2⟩
      · refine Or.inr ⟨[], t0, v0, rest, ?_, hlt, by simp, hall⟩
        simp [minTsKeyAux, hlt, heq]
      · refine Or.inr ⟨(k, t0, v0) :: l1, t, v, l2, ?_, lt_trans hless hlt, ?_, hl2⟩
        · simp only [minTsKeyAux, if_pos hlt]
          simpa using hsplit
        · intro x hx
          rcases List.mem_cons.mp hx with hx | hx
          · subst hx; exact hless
          · exact hl1 x hx
    · rcases ih bk bt with ⟨heq, hall⟩ | ⟨l1, t, v, l2, hsplit, hless, hl1, hl2⟩
      · refine Or.inl ⟨by simp [minTsKeyAux, hlt, heq], ?_⟩
        intro x hx
        rcases List.mem_cons.mp hx with hx | hx
        · subst hx; exact le_of_not_lt hlt
        · exact hall x hx
      · refine Or.inr ⟨(k, t0, v0) :: l1, t, v, l2, ?_, hless, ?_, hl2⟩
        · simp only [minTsKeyAux, if_neg hlt]
          simpa using hsplit
        · intro x hx
          rcases List.mem_cons.mp hx with hx | hx
          · subst hx
            exact lt_of_lt_of_le hless (le_of_not_lt hlt)
          · exact hl1 x hx

/-- The key selected for eviction splits the store at its first entry of
minimal timestamp. -/
theorem minTsKey_spec (e : String × ℚ × α) (rest : List (String × ℚ × α)) :
    ∃ t v l1 l2, e :: rest = l1 ++ (minTsKeyAux e.1 e.2.1 rest, t, v) :: l2 ∧
      (∀ x ∈ l1, t < x.2.1) ∧ (∀ x ∈ e :: rest, t ≤ x.2.1) := by
  obtain ⟨k, t0, v0⟩ := e
  rcases minTsKeyAux_spec rest k t0 with ⟨heq, hall⟩ | ⟨l1, t, v, l2, hsplit, hless, hl1, hl2⟩
  · refine ⟨t0, v0, [], rest, by simp [heq], by simp, ?_⟩
    intro x hx
    rcases List.mem_cons.mp hx with hx | hx
    · subst hx; rfl
    · exact hall x hx
  · refine ⟨t, v, (k, t0, v0) :: l1, l2,
      by rw [List.cons_append]; exact congrArg _ hsplit, ?_, ?_⟩
    · intro x hx
      rcases List.mem_cons.mp hx with hx | hx
      · subst hx; exact hless
      · exact hl1 x hx
    · intro x hx
      rcases List.mem_cons.mp hx with hx | hx
      · subst hx; exact le_of_lt hless
      · rw [hsplit] at hx
        rcases List.mem_append.mp hx with hx | hx
        · exact le_of_lt (hl1 x hx)
        · rcases List.mem_cons.mp hx with hx | hx
          · subst hx; rfl
          · exact hl2 x hx

/-- One `set` call preserves the size bound `|store| ≤ max_items`. -/
theorem set_preserves_bound (c c' : TTLCache α) (now : ℚ) (key : String) (v : α)
    (hinv : c.store.length ≤ c.max_items) (hset : c.set now key v = some c') :
    c'.store.length ≤ c'.max_items ∧ c'.max_items = c.max_items ∧ c'.ttl = c.ttl := by
  unfold TTLCache.set at hset
  by_cases hlen : c.max_items ≤ c.store.length
  · rw [if_pos hlen] at hset
    rcases hs : c.store with - | ⟨e, rest⟩
    · rw [hs] at hset; exact absurd hset (by simp)
    · rw [hs] at hset
      simp only [Option.some.injEq] at hset
      subst hset
      refine ⟨?_, rfl, rfl⟩
      obtain ⟨t, v0, l1, l2, hsplit, -, -⟩ := minTsKey_spec e rest
      obtain ⟨q, hq⟩ := lookupD_of_split l1 l2 (minTsKeyAux e.1 e.2.1 rest) (t, v0)
      rw [← hsplit, ← hs] at hq
      have h1 := length_dictErase_of_mem c.store (minTsKeyAux e.1 e.2.1 rest) q hq
      have h2 := length_dictSet_le (dictErase c.store (minTsKeyAux e.1 e.2.1 rest)) key (now, v)
      simp only [hs] at h1 h2 hinv hlen ⊢
      omega
  · rw [if_neg hlen] at hset
    simp only [Option.some.injEq] at hset
    subst hset
    refine ⟨?_, rfl, rfl⟩
    have h2 := length_dictSet_le c.store key (now, v)
    simp only at h2 ⊢
    omega

/-- Any sequence of `set` calls preserves the size bound. -/
theorem runSets_bound (calls : List (ℚ × String × α)) (c : TTLCache α)
    (hinv : c.store.length ≤ c.max_items) :
    (c.runSets calls).store.length ≤ c.max_items ∧
      (c.runSets calls).max_items = c.max_items := by
  induction calls generalizing c with
  | nil => exact ⟨hinv, rfl⟩
  | cons call rest ih =>
    obtain ⟨t, k, v⟩ := call
    rcases hset : c.set t k v with - | c'
    · simpa [TTLCache.runSets, hset] using ih c hinv
    · have hb := set_preserves_bound c c' t k v hinv hset
      simpa [TTLCache.runSets, hset, hb.2.1] using ih c' hb.1

/-- Case analysis on the cache state returned by `get`. -/
theorem get_state (c : TTLCache α) (now : ℚ) (key : String) :
    (c.get now key).2 = c ∨
      (c.get now key).2 = TTLCache.mk c.ttl c.max_items (dictErase c.store key) := by
  cases hl : lookupD c.store key with
  | none => simp [TTLCache.get, hl]
  | some p =>
    obtain ⟨ts, v⟩ := p
    by_cases hexp : now - ts > c.ttl <;> simp [TTLCache.get, hl, hexp]

/-! ## Claims about the TTL cache -/

/-- Claim C1: over any sequence of `set` calls (any keys, values and
call times) the store never holds more than `max_items` entries; and
whenever `set` evicts — store size at least `max_items` at call time,
store non-empty, with the dict's keys distinct as Python guarantees —
it removes exactly one entry, namely the first entry in iteration order
whose `createdAt` is minimal among all current entries (deterministic
tie-break), and then inserts the new entry with `createdAt = now`. -/
theorem claim_C1 (ttl : ℚ) (maxI : ℕ) (calls : List (ℚ × String × α))
    (c : TTLCache α) (now : ℚ) (key : String) (v : α) :
    ((TTLCache.init ttl maxI : TTLCache α).runSets calls).store.length ≤ maxI ∧
    (c.max_items ≤ c.store.length → c.store ≠ [] → (c.store.map Prod.fst).Nodup →
      ∃ ek t ev l1 l2,
        c.store = l1 ++ (ek, t, ev) :: l2 ∧
        (∀ e ∈ c.store, t ≤ e.2.1) ∧
        (∀ e ∈ l1, t < e.2.1) ∧
        c.set now key v =
          some (TTLCache.mk c.ttl c.max_items (dictSet (l1 ++ l2) key (now, v))) ∧
        lookupD (dictSet (l1 ++ l2) key (now, v)) key = some (now, v)) := by
  constructor
  · have h := runSets_bound calls (TTLCache.init ttl maxI : TTLCache α)
      (by simp [TTLCache.init])
    simpa [TTLCache.init] using h.1
  · intro hlen hne hnodup
    obtain ⟨cttl, cmax, cstore⟩ := c
    rcases cstore with - | ⟨e, rest⟩
    · exact absurd rfl hne
    · dsimp only at hlen hne hnodup
      obtain ⟨t, ev, l1, l2, hsplit, hl1, hall⟩ := minTsKey_spec e rest
      have hnodup2 : ((l1 ++ (minTsKeyAux e.1 e.2.1 rest, t, ev) :: l2).map Prod.fst).Nodup := by
        rw [← hsplit]
        exact hnodup
      have herase : dictErase (e :: rest) (minTsKeyAux e.1 e.2.1 rest) = l1 ++ l2 := by
        rw [hsplit]
        exact dictErase_split_of_nodup l1 l2 _ (t, ev) hnodup2
      refine ⟨minTsKeyAux e.1 e.2.1 rest, t, ev, l1, l2,
        hsplit, hall, hl1, ?_, lookupD_dictSet_self _ _ _⟩
      unfold TTLCache.set
      dsimp only
      rw [if_pos hlen]
      rw [herase]

/-- Witness for C1 at a concrete eviction: capacity 2, three inserts,
and a concrete full store evicting its oldest entry. -/
theorem claim_C1_witness :
    ((TTLCache.init (45 : ℚ) 2 : TTLCache String).runSets
        [(1, ("a"), ("x")), (2, ("b"), ("y")), (3, ("c"), ("z"))]).store.length ≤ 2 ∧
    (∃ ek t ev l1 l2,
      (TTLCache.mk (45 : ℚ) 2 [(("a"), 1, ("x")), (("b"), 2, ("y"))] : TTLCache String).store
          = l1 ++ (ek, t, ev) :: l2 ∧
      (∀ e ∈ (TTLCache.mk (45 : ℚ) 2 [(("a"), 1, ("x")), (("b"), 2, ("y"))] :
          TTLCache String).store, t ≤ e.2.1) ∧
      (∀ e ∈ l1, t < e.2.1) ∧
      (TTLCache.mk (45 : ℚ) 2 [(("a"), 1, ("x")), (("b"), 2, ("y"))] :
          TTLCache String).set 3 ("c") ("z")
          = some (TTLCache.mk 45 2 (dictSet (l1 ++ l2) ("c") (3, ("z")))) ∧
      lookupD (dictSet (l1 ++ l2) ("c") (3, ("z"))) ("c") = some (3, ("z"))) :=
  ⟨(claim_C1 45 2 [(1, ("a"), ("x")), (2, ("b"), ("y")), (3, ("c"), ("z"))]
      (TTLCache.mk 45 2 [(("a"), 1, ("x")), (("b"), 2, ("y"))]) 3 ("c") ("z")).1,
   (claim_C1 45 2 [(1, ("a"), ("x")), (2, ("b"), ("y")), (3, ("c"), ("z"))]
      (TTLCache.mk 45 2 [(("a"), 1, ("x")), (("b"), 2, ("y"))]) 3 ("c") ("z")).2
      (by decide) (by decide) (by decide)⟩

/-- Claim C2: `get` returns absent when no entry exists; removes the
entry and returns absent when `now - createdAt > ttl`; otherwise returns
exactly the stored value.  With `ttl = 45`, `get "k"` right after
`set "k" v` returns `v`, and 46 seconds later returns absent. -/
theorem claim_C2 (c : TTLCache α) (now : ℚ) (key : String) :
    (lookupD c.store key = none → c.get now key = (none, c)) ∧
    (∀ ts v, lookupD c.store key = some (ts, v) → now - ts > c.ttl →
      c.get now key = (none, TTLCache.mk c.ttl c.max_items (dictErase c.store key))) ∧
    (∀ ts v, lookupD c.store key = some (ts, v) → ¬now - ts > c.ttl →
      c.get now key = (some v, c)) ∧
    (∀ (t : ℚ) (w : α),
      ((((TTLCache.init 45 200 : TTLCache α).set t ("k") w).getD
          (TTLCache.init 45 200)).get t ("k")).1 = some w ∧
      ((((TTLCache.init 45 200 : TTLCache α).set t ("k") w).getD
          (TTLCache.init 45 200)).get (t + 46) ("k")).1 = none) := by
  refine ⟨?_, ?_, ?_, ?_⟩
  · intro h
    simp [TTLCache.get, h]
  · intro ts v h hexp
    simp [TTLCache.get, h, hexp]
  · intro ts v h hexp
    simp [TTLCache.get, h, hexp]
  · intro t w
    have hset : ((TTLCache.init 45 200 : TTLCache α).set t ("k") w).getD
        (TTLCache.init 45 200) = TTLCache.mk 45 200 [(("k"), t, w)] := by
      simp [TTLCache.set, TTLCache.init, dictSet]
    rw [hset]
    constructor
    · simp [TTLCache.get, lookupD]
      norm_num
    · simp [TTLCache.get, lookupD]
      norm_num

/-- Witness for C2 at concrete inputs: an absent key, an expired
entry, a fresh entry, and the ttl-45 example at time 0. -/
theorem claim_C2_witness :
    ((TTLCache.mk (45 : ℚ) 200 [] : TTLCache String).get 0 ("k") = (none, TTLCache.mk 45 200 [])) ∧
    ((TTLCache.mk (45 : ℚ) 200 [(("k"), 0, ("v"))] : TTLCache String).get 46 ("k")
      = (none, TTLCache.mk 45 200 (dictErase [(("k"), 0, ("v"))] ("k")))) ∧
    ((TTLCache.mk (45 : ℚ) 200 [(("k"), 0, ("v"))] : TTLCache String).get 45 ("k")
      = (some ("v"), TTLCache.mk 45 200 [(("k"), 0, ("v"))])) ∧
    (((((TTLCache.init 45 200 : TTLCache String).set 0 ("k") ("v")).getD
        (TTLCache.init 45 200)).get 0 ("k")).1 = some ("v")) ∧
    (((((TTLCache.init 45 200 : TTLCache String).set 0 ("k") ("v")).getD
        (TTLCache.init 45 200)).get (0 + 46) ("k")).1 = none) :=
  ⟨(claim_C2 (TTLCache.mk 45 200 []) 0 ("k")).1 (by decide),
   (claim_C2 (TTLCache.mk 45 200 [(("k"), 0, ("v"))]) 46 ("k")).2.1 0 ("v")
      (by decide) (by norm_num),
   (claim_C2 (TTLCache.mk 45 200 [(("k"), 0, ("v"))]) 45 ("k")).2.2.1 0 ("v")
      (by decide) (by norm_num),
   ((claim_C2 (TTLCache.mk 45 200 []) 0 ("k")).2.2.2 0 ("v")).1,
   ((claim_C2 (TTLCache.mk 45 200 []) 0 ("k")).2.2.2 0 ("v")).2⟩

/-- Claim C10: with `max_items ≥ 1`, `set` is total — the eviction scan
runs only on a non-empty store — and afterwards the key is present with
`createdAt = now`; with `max_items = 0` the guarantee fails: the scan
would run on an empty store (Python raises), modelled by `none`. -/
theorem claim_C10 (c : TTLCache α) (now : ℚ) (key : String) (v : α) (ttl : ℚ) :
    (1 ≤ c.max_items →
      ∃ c', c.set now key v = some c' ∧ lookupD c'.store key = some (now, v) ∧
        c'.ttl = c.ttl ∧ c'.max_items = c.max_items) ∧
    (TTLCache.init ttl 0 : TTLCache α).set now key v = none := by
  constructor
  · intro hmax
    unfold TTLCache.set
    by_cases hlen : c.max_items ≤ c.store.length
    · rw [if_pos hlen]
      rcases hs : c.store with - | ⟨e, rest⟩
      · rw [hs] at hlen
        simp at hlen
        omega
      · exact ⟨_, rfl, lookupD_dictSet_self _ _ _, rfl, rfl⟩
    · rw [if_neg hlen]
      exact ⟨_, rfl, lookupD_dictSet_self _ _ _, rfl, rfl⟩
  · rfl

/-- Witness for C10: a full capacity-1 cache accepts a second insert. -/
theorem claim_C10_witness :
    ∃ c', (TTLCache.mk (45 : ℚ) 1 [(("a"), 0, ("x"))] : TTLCache String).set 1 ("b") ("y")
        = some c' ∧
      lookupD c'.store ("b") = some (1, ("y")) ∧ c'.ttl = 45 ∧ c'.max_items = 1 :=
  (claim_C10 (TTLCache.mk 45 1 [(("a"), 0, ("x"))]) 1 ("b") ("y") 45).1 (by decide)

/-! ## Claims about the cached routes -/

/-- Claim C9: cache keys are deterministic in the (operation, model,
input-text) triple, and the `explain:` / `infer:` operation prefixes
make keys of the two operations distinct even for identical model and
input text (and regardless of the hash function used). -/
theorem claim_C9 (h h2 : String → Int) (r1 r2 : ExplainReq) (q1 q2 : InferReq) :
    (r1.model = r2.model → r1.code = r2.code →
      explainCacheKey h r1 = explainCacheKey h r2) ∧
    (q1.model = q2.model → q1.prompt = q2.prompt →
      inferCacheKey h q1 = inferCacheKey h q2) ∧
    explainCacheKey h r1 ≠ inferCacheKey h2 q1 := by
  refine ⟨?_, ?_, ?_⟩
  · intro hm hc
    unfold explainCacheKey
    rw [hm, hc]
  · intro hm hp
    unfold inferCacheKey
    rw [hm, hp]
  · intro heq
    have e1 : (explainCacheKey h r1).data.head? = some 'e' := by
      unfold explainCacheKey
      simp only [String.data_append, List.append_assoc]
      rw [List.head?_append_of_ne_nil _ (by decide)]
      decide
    have i1 : (inferCacheKey h2 q1).data.head? = some 'i' := by
      unfold inferCacheKey
      simp only [String.data_append, List.append_assoc]
      rw [List.head?_append_of_ne_nil _ (by decide)]
      decide
    rw [heq, i1] at e1
    simp at e1

/-- Witness for C9 at a concrete hash function, model and text. -/
theorem claim_C9_witness :
    explainCacheKey (fun _ => (0 : Int)) (ExplainReq.mk ("x = 1") ("qwen3"))
        = explainCacheKey (fun _ => (0 : Int)) (ExplainReq.mk ("x = 1") ("qwen3")) ∧
    inferCacheKey (fun _ => (0 : Int)) (InferReq.mk ("qwen3") ("x = 1"))
        = inferCacheKey (fun _ => (0 : Int)) (InferReq.mk ("qwen3") ("x = 1")) ∧
    explainCacheKey (fun _ => (0 : Int)) (ExplainReq.mk ("x = 1") ("qwen3"))
        ≠ inferCacheKey (fun _ => (0 : Int)) (InferReq.mk ("qwen3") ("x = 1")) :=
  ⟨(claim_C9 (fun _ => 0) (fun _ => 0) (ExplainReq.mk ("x = 1") ("qwen3"))
      (ExplainReq.mk ("x = 1") ("qwen3")) (InferReq.mk ("qwen3") ("x = 1"))
      (InferReq.mk ("qwen3") ("x = 1"))).1 rfl rfl,
   (claim_C9 (fun _ => 0) (fun _ => 0) (ExplainReq.mk ("x = 1") ("qwen3"))
      (ExplainReq.mk ("x = 1") ("qwen3")) (InferReq.mk ("qwen3") ("x = 1"))
      (InferReq.mk ("qwen3") ("x = 1"))).2.1 rfl rfl,
   (claim_C9 (fun _ => 0) (fun _ => 0) (ExplainReq.mk ("x = 1") ("qwen3"))
      (ExplainReq.mk ("x = 1") ("qwen3")) (InferReq.mk ("qwen3") ("x = 1"))
      (InferReq.mk ("qwen3") ("x = 1"))).2.2⟩

/-- Counterexample to claim C8 as stated: a failed gateway call can
still change the cache — the initial `cache.get` lazily removes an
expired entry under the request's key, so the state after the failed
request differs from the state before it. -/
theorem claim_C8_counterexample :
    (explainRoute (fun _ => (0 : Int))
        (TTLCache.mk 45 200 [(("explain:qwen3:0"), 0, Resp.explanation ("old"))]) 100
        (ExplainReq.mk ("x = 1") ("qwen3")) (Except.error GatewayError.unconfigured)).1
      = RouteResult.gatewayFailed GatewayError.unconfigured ∧
    (explainRoute (fun _ => (0 : Int))
        (TTLCache.mk 45 200 [(("explain:qwen3:0"), 0, Resp.explanation ("old"))]) 100
        (ExplainReq.mk ("x = 1") ("qwen3")) (Except.error GatewayError.unconfigured)).2.store
      = [] ∧
    ([(("explain:qwen3:0"), 0, Resp.explanation ("old"))] : List (String × ℚ × Resp)) ≠ [] := by
  have hkey : explainCacheKey (fun _ => (0 : Int)) (ExplainReq.mk ("x = 1") ("qwen3"))
      = ("explain:qwen3:0") := rfl
  have hget : (TTLCache.mk (45 : ℚ) 200
      [(("explain:qwen3:0"), 0, Resp.explanation ("old"))] : TTLCache Resp).get 100
      ("explain:qwen3:0") = (none, TTLCache.mk 45 200 []) := by
    simp only [TTLCache.get, lookupD]
    norm_num [dictErase]
  refine ⟨?_, ?_, by simp⟩
  all_goals simp only [explainRoute, hkey, hget]

/-- Claim C8 as amended: when the gateway call fails, no entry is
written — the cache after the request is the cache after the initial
lookup, i.e. either unchanged or with only the (expired) entry under the
request's own key lazily removed; `cache.set` runs only after the
gateway call succeeds. -/
theorem claim_C8_amended (h : String → Int) (c : TTLCache Resp) (now : ℚ)
    (req : ExplainReq) (qreq : InferReq) (e e2 : GatewayError) :
    ((explainRoute h c now req (Except.error e)).2.store = c.store ∨
      (explainRoute h c now req (Except.error e)).2.store
        = dictErase c.store (explainCacheKey h req)) ∧
    ((inferRoute h c now qreq (Except.error e2)).2.store = c.store ∨
      (inferRoute h c now qreq (Except.error e2)).2.store
        = dictErase c.store (inferCacheKey h qreq)) := by
  constructor
  · have hst := get_state c now (explainCacheKey h req)
    simp only [explainRoute]
    rcases hg : c.get now (explainCacheKey h req) with ⟨o, c1⟩
    rw [hg] at hst
    have hc1 : c1 = c ∨ c1 = TTLCache.mk c.ttl c.max_items
        (dictErase c.store (explainCacheKey h req)) := by simpa using hst
    rcases o with - | v <;> rcases hc1 with hc1 | hc1
    · exact Or.inl (by simp only [hg, hc1])
    · exact Or.inr (by simp only [hg, hc1])
    · exact Or.inl (by simp only [hg, hc1])
    · exact Or.inr (by simp only [hg, hc1])
  · have hst := get_state c now (inferCacheKey h qreq)
    simp only [inferRoute]
    rcases hg : c.get now (inferCacheKey h qreq) with ⟨o, c1⟩
    rw [hg] at hst
    have hc1 : c1 = c ∨ c1 = TTLCache.mk c.ttl c.max_items
        (dictErase c.store (inferCacheKey h qreq)) := by simpa using hst
    rcases o with - | v <;> rcases hc1 with hc1 | hc1
    · exact Or.inl (by simp only [hg, hc1])
    · exact Or.inr (by simp only [hg, hc1])
    · exact Or.inl (by simp only [hg, hc1])
    · exact Or.inr (by simp only [hg, hc1])

/-! ## Claims about the orchestrator -/

/-- Claim C6: `analyze ""` yields formatted `"\n"`, no findings and
exactly the generic no-duplicates suggestion; in general, no duplicate
pair gives exactly the one generic suggestion, and otherwise one
suggestion per duplicate pair naming both symbols. -/
theorem claim_C6 (code : String) :
    (find_duplicate_functions code = [] →
      (analyze code).refactors = [genericRefactor]) ∧
    (find_duplicate_functions code ≠ [] →
      (analyze code).refactors = (find_duplicate_functions code).map dupRefactor) ∧
    analyze ("") = AnalysisResult.mk ("\n") [] [genericRefactor] := by
  refine ⟨?_, ?_, by decide⟩
  · intro hd
    simp [analyze, hd]
  · intro hd
    have hne : ¬((find_duplicate_functions code).map dupRefactor).isEmpty = true := by
      simp [List.isEmpty_iff, hd]
    simp [analyze, hne]

/-- Witness for C6: the empty input (no duplicates) and the duplicate
example both instantiated. -/
theorem claim_C6_witness :
    (analyze ("")).refactors = [genericRefactor] ∧
    (analyze ("def a():\n    return 1\n\ndef b():\n    return 1\n")).refactors =
      (find_duplicate_functions ("def a():\n    return 1\n\ndef b():\n    return 1\n")).map
        dupRefactor :=
  ⟨(claim_C6 ("")).1 (by decide),
   (claim_C6 ("def a():\n    return 1\n\ndef b():\n    return 1\n")).2.1 (by decide)⟩

/-! ## Claims about the duplicate detector -/

/-- Pairs emitted by the `bodies_map` loop always have distinct names
(the guard `bodies_map[key] != name`). -/
theorem collectDupsAux_ne (seen : List (String × String)) (fns : List (String × String)) :
    ∀ p ∈ collectDupsAux seen fns, p.1 ≠ p.2 := by
  induction fns generalizing seen with
  | nil => simp [collectDupsAux]
  | cons f rest ih =>
    obtain ⟨name, body⟩ := f
    intro p hp
    simp only [collectDupsAux] at hp
    rcases hl : seen.lookup (normBody body) with - | first
    · rw [hl] at hp
      exact ih _ p hp
    · rw [hl] at hp
      dsimp only at hp
      by_cases hfn : first ≠ name
      · rw [if_pos hfn] at hp
        rcases List.mem_cons.mp hp with hp | hp
        · rw [hp]
          exact hfn
        · exact ih _ p hp
      · rw [if_neg hfn] at hp
        exact ih _ p hp

/-- If all scanned functions have pairwise distinct normalized bodies
(and none collides with the map so far), no pair is emitted. -/
theorem collectDupsAux_nil (fns : List (String × String)) (seen : List (String × String))
    (hpair : fns.Pairwise (fun p q => normBody p.2 ≠ normBody q.2))
    (hseen : ∀ f ∈ fns, seen.lookup (normBody f.2) = none) :
    collectDupsAux seen fns = [] := by
  induction fns generalizing seen with
  | nil => rfl
  | cons f rest ih =>
    obtain ⟨name, body⟩ := f
    rw [List.pairwise_cons] at hpair
    have hl := hseen (name, body) (by simp)
    simp only at hl
    simp only [collectDupsAux, hl]
    refine ih _ hpair.2 ?_
    intro g hg
    have hne : (normBody g.2 == normBody body) = false := by
      rw [beq_eq_false_iff_ne]
      intro hc
      exact hpair.1 g hg hc.symm
    rw [List.lookup_cons, hne]
    exact hseen g (List.mem_cons_of_mem _ hg)

/-- Two scanned functions with equal normalized bodies and different
names yield exactly the pair of their names, in source order. -/
theorem collectDups_two (n1 b1 n2 b2 : String) (hb : normBody b1 = normBody b2)
    (hn : n1 ≠ n2) : collectDupsAux [] [(n1, b1), (n2, b2)] = [(n1, n2)] := by
  have h2 : (((normBody b1, n1) :: []).lookup (normBody b2)) = some n1 := by
    rw [List.lookup_cons]
    simp [← hb]
  simp only [collectDupsAux, List.lookup_nil, h2]
  rw [if_pos hn]

/-- Claim C5: two scanned definitions with byte-identical bodies and
different names produce exactly one pair in source order; pairwise
distinct normalized bodies produce no pair; a function is never paired
with itself; and on the concrete two-function example the detector
returns `[("a","b")]` and the orchestrator emits the `"a & b"` entry. -/
theorem claim_C5 (code : String) (n1 b1 n2 b2 : String) :
    (scanDefs code = [(n1, b1), (n2, b2)] → b1 = b2 → n1 ≠ n2 →
      find_duplicate_functions code = [(n1, n2)]) ∧
    ((scanDefs code).Pairwise (fun p q => normBody p.2 ≠ normBody q.2) →
      find_duplicate_functions code = []) ∧
    (∀ p ∈ find_duplicate_functions code, p.1 ≠ p.2) ∧
    find_duplicate_functions ("def a():\n    return 1\n\ndef b():\n    return 1\n")
      = [(("a"), ("b"))] ∧
    (analyze ("def a():\n    return 1\n\ndef b():\n    return 1\n")).refactors =
      [Refactor.mk ("a & b")
        ("Functions `a` and `b` have identical bodies. Extract a single helper and reuse.")] := by
  refine ⟨?_, ?_, ?_, by decide, by decide⟩
  · intro hscan hb hn
    unfold find_duplicate_functions
    rw [hscan]
    exact collectDups_two n1 b1 n2 b2 (by rw [hb]) hn
  · intro hpair
    unfold find_duplicate_functions
    exact collectDupsAux_nil _ [] hpair (by simp)
  · intro p hp
    exact collectDupsAux_ne [] (scanDefs code) p hp

/-- Witness for C5: byte-identical extracted bodies with distinct
names give one pair; a single function gives no pair; the emitted pair
has distinct components. -/
theorem claim_C5_witness :
    find_duplicate_functions ("def a():\n    return 1\ndef b():\n    return 1\n")
      = [(("a"), ("b"))] ∧
    find_duplicate_functions ("def a():\n    return 1\n") = [] ∧
    ((("a"), ("b")) : String × String).1 ≠ ((("a"), ("b")) : String × String).2 :=
  ⟨(claim_C5 ("def a():\n    return 1\ndef b():\n    return 1\n")
      ("a") ("return 1\n") ("b") ("return 1\n")).1 (by decide) rfl (by decide),
   (claim_C5 ("def a():\n    return 1\n") ("") ("") ("") ("")).2.1 (by decide),
   (claim_C5 ("def a():\n    return 1\ndef b():\n    return 1\n")
      ("a") ("return 1\n") ("b") ("return 1\n")).2.2.1 (("a"), ("b")) (by decide)⟩

/-! ## Helper lemmas: Python string primitives -/

theorem break_isSpace (c : Char) (h : isLineBreak c = true) : pyIsSpace c = true := by
  simp only [isLineBreak, Bool.or_eq_true, beq_iff_eq] at h
  rcases h with ((((((((h | h) | h) | h) | h) | h) | h) | h) | h) | h <;> subst h <;> decide

theorem mem_of_getLast? {β : Type} {l : List β} {a : β} (h : l.getLast? = some a) : a ∈ l := by
  rw [← List.head?_reverse] at h
  rcases hl : l.reverse with - | ⟨c, t⟩
  · rw [hl] at h
    simp at h
  · rw [hl] at h
    injection h with h
    subst h
    rw [← List.mem_reverse, hl]
    simp

theorem head_dropWhile_false (p : Char → Bool) (l : List Char) (c : Char) (rest : List Char)
    (h : l.dropWhile p = c :: rest) : p c = false := by
  induction l with
  | nil => simp at h
  | cons a t ih =>
    rw [List.dropWhile_cons] at h
    by_cases hpa : p a = true
    · rw [if_pos hpa] at h
      exact ih h
    · rw [if_neg hpa] at h
      injection h with h1 h2
      subst h1
      simpa using hpa

theorem dropWhile_append_all (p : Char → Bool) (a b : List Char)
    (ha : ∀ c ∈ a, p c = true) : (a ++ b).dropWhile p = b.dropWhile p := by
  induction a with
  | nil => rfl
  | cons x t ih =>
    rw [List.cons_append, List.dropWhile_cons, if_pos (ha x (by simp))]
    exact ih (fun c hc => ha c (List.mem_cons_of_mem _ hc))

theorem dropWhile_append_ne_nil (p : Char → Bool) (a b : List Char)
    (h : a.dropWhile p ≠ []) : (a ++ b).dropWhile p = a.dropWhile p ++ b := by
  rw [List.dropWhile_append, if_neg (by simpa [List.isEmpty_iff] using h)]

theorem dropWhile_eq_self_of_head (p : Char → Bool) (l : List Char)
    (h : ∀ c, l.head? = some c → p c = false) : l.dropWhile p = l := by
  cases l with
  | nil => rfl
  | cons c t => rw [List.dropWhile_cons, if_neg (by simp [h c rfl])]

theorem pyRstrip_eq_nil_iff (l : List Char) :
    pyRstrip l = [] ↔ ∀ c ∈ l, pyIsSpace c = true := by
  unfold pyRstrip
  rw [List.reverse_eq_nil_iff, List.dropWhile_eq_nil_iff]
  constructor
  · intro h c hc
    exact h c (List.mem_reverse.mpr hc)
  · intro h c hc
    exact h c (List.mem_reverse.mp hc)

theorem pyRstrip_last_not_space (l : List Char) (h : pyRstrip l ≠ []) :
    ∃ c, (pyRstrip l).getLast? = some c ∧ pyIsSpace c = false := by
  unfold pyRstrip at h ⊢
  rcases hd : l.reverse.dropWhile pyIsSpace with - | ⟨c, rest⟩
  · rw [hd] at h
    simp at h
  · refine ⟨c, ?_, head_dropWhile_false _ _ _ _ hd⟩
    rw [List.getLast?_reverse]
    rfl

theorem pyRstrip_eq_self_of_last (l : List Char) (c : Char) (hl : l.getLast? = some c)
    (hc : pyIsSpace c = false) : pyRstrip l = l := by
  unfold pyRstrip
  rw [dropWhile_eq_self_of_head _ _ ?_, List.reverse_reverse]
  intro d hd
  rw [List.head?_reverse, hl] at hd
  injection hd with hd
  subst hd
  exact hc

theorem pyRstrip_idem (l : List Char) : pyRstrip (pyRstrip l) = pyRstrip l := by
  by_cases h : pyRstrip l = []
  · rw [h]
    rfl
  · obtain ⟨c, hc, hcs⟩ := pyRstrip_last_not_space l h
    exact pyRstrip_eq_self_of_last _ c hc hcs

theorem pyRstrip_append_all (a b : List Char) (h : ∀ c ∈ b, pyIsSpace c = true) :
    pyRstrip (a ++ b) = pyRstrip a := by
  unfold pyRstrip
  rw [List.reverse_append,
    dropWhile_append_all _ _ _ (fun c hc => h c (List.mem_reverse.mp hc))]

theorem pyRstrip_append_ne_nil (a b : List Char) (h : pyRstrip b ≠ []) :
    pyRstrip (a ++ b) = a ++ pyRstrip b := by
  unfold pyRstrip at h ⊢
  rw [List.reverse_append,
    dropWhile_append_ne_nil _ _ _ (fun hx => h (by rw [hx]; rfl)),
    List.reverse_append, List.reverse_reverse]

theorem mem_pyRstrip (m : List Char) (c : Char) (h : c ∈ pyRstrip m) : c ∈ m := by
  unfold pyRstrip at h
  rw [List.mem_reverse] at h
  exact List.mem_reverse.mp ((List.dropWhile_suffix pyIsSpace).subset h)

theorem pyLstrip_eq_self_of_head (l : List Char)
    (h : ∀ c, l.head? = some c → pyIsSpace c = false) : pyLstrip l = l :=
  dropWhile_eq_self_of_head _ _ h

theorem pyLstrip_append_ne_nil (a b : List Char) (h : pyLstrip a ≠ []) :
    pyLstrip (a ++ b) = pyLstrip a ++ b :=
  dropWhile_append_ne_nil _ _ _ h

theorem pyLstrip_cons_space (c : Char) (l : List Char) (h : pyIsSpace c = true) :
    pyLstrip (c :: l) = pyLstrip l := by
  unfold pyLstrip
  rw [List.dropWhile_cons, if_pos h]

theorem pyLstrip_head_not_space (l : List Char) (h : pyLstrip l ≠ []) :
    ∃ c rest, pyLstrip l = c :: rest ∧ pyIsSpace c = false := by
  rcases hd : pyLstrip l with - | ⟨c, rest⟩
  · exact absurd hd h
  · exact ⟨c, rest, rfl, head_dropWhile_false _ _ _ _ hd⟩

theorem pyLstrip_ne_nil_of_rstripped (l : List Char) (h : pyRstrip l = l) (hne : l ≠ []) :
    pyLstrip l ≠ [] := by
  obtain ⟨c, hc, hcs⟩ := pyRstrip_last_not_space l (by rw [h]; exact hne)
  rw [h] at hc
  intro hx
  unfold pyLstrip at hx
  rw [List.dropWhile_eq_nil_iff] at hx
  rw [hx c (mem_of_getLast? hc)] at hcs
  exact absurd hcs (by simp)

theorem pyRstrip_pyLstrip (l : List Char) (h : pyRstrip l = l) :
    pyRstrip (pyLstrip l) = pyLstrip l := by
  by_cases hn : pyLstrip l = []
  · rw [hn]
    rfl
  · obtain ⟨pre, hpre⟩ : pyLstrip l <:+ l := List.dropWhile_suffix pyIsSpace
    have hlne : l ≠ [] := by
      intro hl
      exact hn (by rw [hl]; rfl)
    obtain ⟨c, hc, hcs⟩ := pyRstrip_last_not_space l (by rw [h]; exact hlne)
    rw [h] at hc
    refine pyRstrip_eq_self_of_last _ c ?_ hcs
    rw [← hpre] at hc
    rw [List.getLast?_append_of_ne_nil pre hn] at hc
    exact hc

theorem mem_pyStrip (l : List Char) (c : Char) (h : c ∈ pyStrip l) : c ∈ l := by
  unfold pyStrip pyLstrip at h
  exact mem_pyRstrip l c ((List.dropWhile_suffix pyIsSpace).subset h)

theorem pySplitlines_cons_nl (t : List Char) :
    pySplitlines ('\n' :: t) = [] :: pySplitlines t := by
  cases t <;> rfl

theorem pySplitlines_cons_no_break (c : Char) (t : List Char) (h : isLineBreak c = false) :
    pySplitlines (c :: t) =
      match pySplitlines t with
      | [] => [[c]]
      | l :: ls => (c :: l) :: ls := by
  cases t with
  | nil =>
    show (if isLineBreak c then [[]] else [[c]]) = _
    rw [if_neg (by simp [h])]
    rfl
  | cons d r =>
    have hc : ¬(c = '\r' ∧ d = '\n') := by
      rintro ⟨h1, -⟩
      rw [h1] at h
      exact absurd h (by decide)
    rw [pySplitlines, if_neg hc, if_neg (by simp [h])]

theorem splitOnNl_cons_nl (t : List Char) : splitOnNl ('\n' :: t) = [] :: splitOnNl t := by
  rw [splitOnNl, if_pos rfl]

theorem splitOnNl_cons_other (c : Char) (t : List Char) (h : c ≠ '\n') :
    splitOnNl (c :: t) =
      match splitOnNl t with
      | [] => [[c]]
      | l :: ls => (c :: l) :: ls := by
  rw [splitOnNl, if_neg h]

theorem splitOnNl_ne_nil (y : List Char) : splitOnNl y ≠ [] := by
  cases y with
  | nil => simp [splitOnNl]
  | cons c t =>
    by_cases hc : c = '\n'
    · subst hc
      rw [splitOnNl_cons_nl]
      simp
    · rw [splitOnNl_cons_other c t hc]
      cases hsp : splitOnNl t <;> simp

theorem joinNl_cons (l : List Char) (ls : List (List Char)) (h : ls ≠ []) :
    joinNl (l :: ls) = l ++ '\n' :: joinNl ls := by
  cases ls with
  | nil => exact absurd rfl h
  | cons m ms => rfl

theorem pySplitlines_append_nl (y : List Char)
    (h : ∀ c ∈ y, isLineBreak c = true → c = '\n') :
    pySplitlines (y ++ ['\n']) = splitOnNl y := by
  induction y with
  | nil => rfl
  | cons c y' ih =>
    have ih' := ih (fun d hd => h d (List.mem_cons_of_mem _ hd))
    by_cases hc : c = '\n'
    · subst hc
      rw [List.cons_append, pySplitlines_cons_nl, splitOnNl_cons_nl, ih']
    · have hcb : isLineBreak c = false := by
        by_cases hb : isLineBreak c = true
        · exact absurd (h c (by simp) hb) hc
        · simpa using hb
      rw [List.cons_append, pySplitlines_cons_no_break c _ hcb,
        splitOnNl_cons_other c _ hc, ih']

theorem splitOnNl_no_nl (m : List Char) (h : '\n' ∉ m) : splitOnNl m = [m] := by
  induction m with
  | nil => rfl
  | cons c t ih =>
    have hc : c ≠ '\n' := fun hx => h (by simp [hx])
    rw [splitOnNl_cons_other c t hc, ih (fun hx => h (List.mem_cons_of_mem _ hx))]

theorem splitOnNl_append_nl_left (m t : List Char) (h : '\n' ∉ m) :
    splitOnNl (m ++ '\n' :: t) = m :: splitOnNl t := by
  induction m with
  | nil =>
    rw [List.nil_append, splitOnNl_cons_nl]
  | cons c m' ih =>
    have hc : c ≠ '\n' := fun hx => h (by simp [hx])
    rw [List.cons_append, splitOnNl_cons_other c _ hc,
      ih (fun hx => h (List.mem_cons_of_mem _ hx))]

theorem splitOnNl_joinNl (M : List (List Char)) (hM : M ≠ [])
    (h : ∀ m ∈ M, '\n' ∉ m) : splitOnNl (joinNl M) = M := by
  induction M with
  | nil => exact absurd rfl hM
  | cons m M' ih =>
    cases M' with
    | nil => exact splitOnNl_no_nl m (h m (by simp))
    | cons m2 M'' =>
      rw [joinNl_cons m _ (by simp), splitOnNl_append_nl_left m _ (h m (by simp)),
        ih (by simp) (fun x hx => h x (List.mem_cons_of_mem _ hx))]

theorem joinNl_getLast (M : List (List Char)) (m : List Char)
    (hM : M.getLast? = some m) (hm : m ≠ []) :
    joinNl M ≠ [] ∧ (joinNl M).getLast? = m.getLast? := by
  induction M with
  | nil => simp at hM
  | cons l M' ih =>
    cases M' with
    | nil =>
      simp only [List.getLast?_singleton, Option.some.injEq] at hM
      subst hM
      exact ⟨hm, rfl⟩
    | cons m2 M'' =>
      have hM' : (m2 :: M'').getLast? = some m := by
        rw [← hM, List.getLast?_cons_cons]
      obtain ⟨h1, h2⟩ := ih hM'
      rw [joinNl_cons l _ (by simp)]
      constructor
      · simp
      · rw [List.getLast?_append_of_ne_nil _ (by simp)]
        rcases hj : joinNl (m2 :: M'') with - | ⟨y, ys⟩
        · exact absurd hj h1
        · rw [List.getLast?_cons_cons, ← hj, h2]

theorem mem_joinNl (M : List (List Char)) (c : Char) (h : c ∈ joinNl M) :
    c = '\n' ∨ ∃ m ∈ M, c ∈ m := by
  induction M with
  | nil => simp [joinNl] at h
  | cons l M' ih =>
    cases M' with
    | nil => exact Or.inr ⟨l, by simp, h⟩
    | cons m2 M'' =>
      rw [joinNl_cons l _ (by simp)] at h
      rcases List.mem_append.mp h with h | h
      · exact Or.inr ⟨l, by simp, h⟩
      · rcases List.mem_cons.mp h with h | h
        · exact Or.inl h
        · rcases ih h with h | ⟨m, hm, hcm⟩
          · exact Or.inl h
          · exact Or.inr ⟨m, List.mem_cons_of_mem _ hm, hcm⟩

theorem pySplitlines_no_break (l : List Char) :
    ∀ m ∈ pySplitlines l, ∀ c ∈ m, isLineBreak c = false := by
  induction l using pySplitlines.induct with
  | case1 => simp [pySplitlines]
  | case2 c hc => simp [pySplitlines, hc]
  | case3 c hc =>
    intro m hm d hd
    rw [show pySplitlines [c] = [[c]] by
        show (if isLineBreak c then [[]] else [[c]]) = [[c]]
        rw [if_neg hc]] at hm
    simp only [List.mem_singleton] at hm
    subst hm
    simp only [List.mem_singleton] at hd
    subst hd
    simpa using hc
  | case4 c d rest hcd ih =>
    obtain ⟨h1, h2⟩ := hcd
    subst h1
    subst h2
    rw [pySplitlines, if_pos ⟨rfl, rfl⟩]
    intro m hm e he
    rcases List.mem_cons.mp hm with hm | hm
    · subst hm
      simp at he
    · exact ih m hm e he
  | case5 c d rest hcd hc ih =>
    rw [pySplitlines, if_neg hcd, if_pos hc]
    intro m hm e he
    rcases List.mem_cons.mp hm with hm | hm
    · subst hm
      simp at he
    · exact ih m hm e he
  | case6 c d rest hcd hc hnil ih =>
    rw [pySplitlines, if_neg hcd, if_neg hc, hnil]
    intro m hm e he
    simp only [List.mem_singleton] at hm
    subst hm
    rcases List.mem_cons.mp he with he | he
    · subst he
      simpa using hc
    · simp at he
  | case7 c d rest hcd hc l0 ls hcons ih =>
    rw [pySplitlines, if_neg hcd, if_neg hc, hcons]
    intro m hm e he
    rcases List.mem_cons.mp hm with hm | hm
    · subst hm
      rcases List.mem_cons.mp he with he | he
      · subst he
        simpa using hc
      · exact ih (l0) (by rw [hcons]; simp) e he
    · exact ih m (by rw [hcons]; exact List.mem_cons_of_mem _ hm) e he

theorem pySplitlines_mem (l : List Char) :
    ∀ m ∈ pySplitlines l, ∀ c ∈ m, c ∈ l := by
  induction l using pySplitlines.induct with
  | case1 => simp [pySplitlines]
  | case2 c hc =>
    rw [show pySplitlines [c] = [[]] by
        show (if isLineBreak c then [[]] else [[c]]) = [[]]
        rw [if_pos hc]]
    simp
  | case3 c hc =>
    rw [show pySplitlines [c] = [[c]] by
        show (if isLineBreak c then [[]] else [[c]]) = [[c]]
        rw [if_neg hc]]
    simp
  | case4 c d rest hcd ih =>
    obtain ⟨h1, h2⟩ := hcd
    subst h1
    subst h2
    rw [pySplitlines, if_pos ⟨rfl, rfl⟩]
    intro m hm e he
    rcases List.mem_cons.mp hm with hm | hm
    · subst hm
      simp at he
    · simp [ih m hm e he]
  | case5 c d rest hcd hc ih =>
    rw [pySplitlines, if_neg hcd, if_pos hc]
    intro m hm e he
    rcases List.mem_cons.mp hm with hm | hm
    · subst hm
      simp at he
    · exact List.mem_cons_of_mem _ (ih m hm e he)
  | case6 c d rest hcd hc hnil ih =>
    rw [pySplitlines, if_neg hcd, if_neg hc, hnil]
    intro m hm e he
    simp only [List.mem_singleton] at hm
    subst hm
    rcases List.mem_cons.mp he with he | he
    · simp [he]
    · simp at he
  | case7 c d rest hcd hc l0 ls hcons ih =>
    rw [pySplitlines, if_neg hcd, if_neg hc, hcons]
    intro m hm e he
    rcases List.mem_cons.mp hm with hm | hm
    · subst hm
      rcases List.mem_cons.mp he with he | he
      · simp [he]
      · exact List.mem_cons_of_mem _ (ih (l0) (by rw [hcons]; simp) e he)
    · exact List.mem_cons_of_mem _
        (ih m (by rw [hcons]; exact List.mem_cons_of_mem _ hm) e he)

theorem replaceTabs_no_tab (l : List Char) : '\t' ∉ replaceTabs l := by
  induction l with
  | nil => simp [replaceTabs]
  | cons c rest ih =>
    rw [replaceTabs]
    by_cases hc : c = '\t'
    · rw [if_pos hc]
      intro hm
      rcases List.mem_cons.mp hm with h | hm
      · exact absurd h.symm (by decide)
      · rcases List.mem_cons.mp hm with h | hm
        · exact absurd h.symm (by decide)
        · rcases List.mem_cons.mp hm with h | hm
          · exact absurd h.symm (by decide)
          · rcases List.mem_cons.mp hm with h | hm
            · exact absurd h.symm (by decide)
            · exact ih hm
    · rw [if_neg hc]
      intro hm
      rcases List.mem_cons.mp hm with h | hm
      · exact hc h.symm
      · exact ih hm

theorem replaceTabs_eq_self (l : List Char) (h : '\t' ∉ l) : replaceTabs l = l := by
  induction l with
  | nil => rfl
  | cons c rest ih =>
    rw [replaceTabs, if_neg (fun hx => h (by simp [hx]))]
    rw [ih (fun hx => h (List.mem_cons_of_mem _ hx))]

theorem mem_dropTrailEmpty (L : List (List Char)) (m : List Char)
    (h : m ∈ dropTrailEmpty L) : m ∈ L := by
  induction L with
  | nil => simp [dropTrailEmpty] at h
  | cons l L' ih =>
    rw [dropTrailEmpty] at h
    rcases hdt : dropTrailEmpty L' with - | ⟨x, xs⟩
    · rw [hdt] at h
      by_cases he : l.isEmpty
      · rw [if_pos he] at h
        simp at h
      · rw [if_neg he] at h
        simp only [List.mem_singleton] at h
        simp [h]
    · rw [hdt] at h
      rcases List.mem_cons.mp h with h | h
      · simp [h]
      · exact List.mem_cons_of_mem _ (ih (hdt ▸ h))

theorem dropTrailEmpty_getLast (L : List (List Char)) :
    dropTrailEmpty L = [] ∨
      ∃ m, (dropTrailEmpty L).getLast? = some m ∧ m ≠ [] := by
  induction L with
  | nil => exact Or.inl rfl
  | cons l L' ih =>
    rw [dropTrailEmpty]
    rcases hdt : dropTrailEmpty L' with - | ⟨x, xs⟩
    · by_cases he : l.isEmpty
      · rw [if_pos he]
        exact Or.inl rfl
      · rw [if_neg he]
        refine Or.inr ⟨l, by simp, ?_⟩
        simpa [List.isEmpty_iff] using he
    · rcases ih with ih | ⟨m, hm, hmne⟩
      · rw [ih] at hdt
        cases hdt
      · refine Or.inr ⟨m, ?_, hmne⟩
        rw [hdt] at hm
        rw [List.getLast?_cons_cons, hm]

theorem dropTrailEmpty_all_empty (L : List (List Char)) (h : dropTrailEmpty L = []) :
    ∀ m ∈ L, m = [] := by
  induction L with
  | nil => simp
  | cons l L' ih =>
    rw [dropTrailEmpty] at h
    rcases hdt : dropTrailEmpty L' with - | ⟨x, xs⟩
    · rw [hdt] at h
      by_cases he : l.isEmpty
      · intro m hm
        rcases List.mem_cons.mp hm with hm | hm
        · subst hm
          simpa [List.isEmpty_iff] using he
        · exact ih hdt m hm
      · rw [if_neg he] at h
        cases h
    · rw [hdt] at h
      cases h

theorem pyRstrip_all_space_join (L : List (List Char)) (h : ∀ m ∈ L, m = []) :
    ∀ c ∈ joinNl L, pyIsSpace c = true := by
  induction L with
  | nil => simp [joinNl]
  | cons l L' ih =>
    cases L' with
    | nil =>
      rw [h l (by simp)]
      simp [joinNl]
    | cons m2 M'' =>
      rw [joinNl_cons l _ (by simp), h l (by simp)]
      intro c hc
      rcases List.mem_cons.mp hc with hc | hc
      · subst hc
        decide
      · exact ih (fun m hm => h m (List.mem_cons_of_mem _ hm)) c hc

/-- Right-stripping the joined text drops exactly the trailing blank
lines (given right-stripped, newline-free lines). -/
theorem pyRstrip_joinNl (L : List (List Char))
    (h : ∀ m ∈ L, pyRstrip m = m ∧ '\n' ∉ m) :
    pyRstrip (joinNl L) = joinNl (dropTrailEmpty L) := by
  induction L with
  | nil => rfl
  | cons l L' ih =>
    have hl := h l (by simp)
    have ih' := ih (fun x hx => h x (List.mem_cons_of_mem _ hx))
    rcases hdt : dropTrailEmpty L' with - | ⟨m, ms⟩
    · rw [hdt] at ih'
      have hallsp : ∀ c ∈ joinNl L', pyIsSpace c = true :=
        pyRstrip_all_space_join L' (dropTrailEmpty_all_empty L' hdt)
      cases L' with
      | nil =>
        by_cases he : l = []
        · subst he
          rfl
        · show pyRstrip l = joinNl (if l.isEmpty = true then [] else [l])
          rw [hl.1, if_neg (by simpa [List.isEmpty_iff] using he)]
          rfl
      | cons l2 L'' =>
        rw [joinNl_cons l _ (by simp)]
        have hsp : ∀ c ∈ '\n' :: joinNl (l2 :: L''), pyIsSpace c = true := by
          intro c hc
          rcases List.mem_cons.mp hc with hc | hc
          · subst hc
            decide
          · exact hallsp c hc
        rw [pyRstrip_append_all l _ hsp, hl.1, dropTrailEmpty, hdt]
        by_cases he : l = []
        · subst he
          rw [if_pos (by simp)]
          rfl
        · rw [if_neg (by simpa [List.isEmpty_iff] using he)]
          rfl
    · have hLne : L' ≠ [] := by
        intro hx
        rw [hx] at hdt
        cases hdt
      have hjoin_ne : pyRstrip (joinNl L') ≠ [] := by
        rw [ih', hdt]
        rcases dropTrailEmpty_getLast L' with hx | ⟨m0, hm0, hm0ne⟩
        · rw [hx] at hdt
          cases hdt
        · rw [hdt] at hm0
          exact (joinNl_getLast _ m0 hm0 hm0ne).1
      have hnl_ne : pyRstrip ('\n' :: joinNl L') ≠ [] := by
        have := pyRstrip_append_ne_nil (['\n']) (joinNl L') hjoin_ne
        rw [List.cons_append, List.nil_append] at this
        rw [this]
        simp
      rw [joinNl_cons l _ hLne, pyRstrip_append_ne_nil l _ hnl_ne]
      have h2 := pyRstrip_append_ne_nil (['\n']) (joinNl L') hjoin_ne
      rw [List.cons_append, List.nil_append] at h2
      rw [h2, ih', hdt, dropTrailEmpty, hdt, joinNl_cons l _ (by simp),
        List.singleton_append]

/-- Left-stripping the joined text drops the leading blank lines and
left-strips the first surviving line. -/
theorem pyLstrip_joinNl (M : List (List Char))
    (h : ∀ m ∈ M, pyRstrip m = m ∧ '\n' ∉ m) :
    pyLstrip (joinNl M) = joinNl (lstripLead M) := by
  induction M with
  | nil => rfl
  | cons l M' ih =>
    have ih' := ih (fun x hx => h x (List.mem_cons_of_mem _ hx))
    cases l with
    | nil =>
      cases M' with
      | nil => rfl
      | cons m2 M'' =>
        rw [joinNl_cons ([]) _ (by simp), List.nil_append,
          pyLstrip_cons_space '\n' _ (by decide)]
        exact ih'
    | cons c cs =>
      have hlr := (h (c :: cs) (by simp)).1
      have hlne : pyLstrip (c :: cs) ≠ [] :=
        pyLstrip_ne_nil_of_rstripped _ hlr (by simp)
      cases M' with
      | nil => rfl
      | cons m2 M'' =>
        rw [joinNl_cons (c :: cs) _ (by simp),
          pyLstrip_append_ne_nil (c :: cs) _ hlne]
        show pyLstrip (c :: cs) ++ '\n' :: joinNl (m2 :: M'')
          = joinNl (pyLstrip (c :: cs) :: m2 :: M'')
        rw [joinNl_cons (pyLstrip (c :: cs)) (m2 :: M'') (by simp)]

theorem mem_lstripLead (M : List (List Char)) (m : List Char) (h : m ∈ lstripLead M) :
    m ∈ M ∨ ∃ l ∈ M, m = pyLstrip l := by
  induction M with
  | nil => simp [lstripLead] at h
  | cons l M' ih =>
    cases l with
    | nil =>
      rcases ih h with h | ⟨l0, hl0, hml⟩
      · exact Or.inl (List.mem_cons_of_mem _ h)
      · exact Or.inr ⟨l0, List.mem_cons_of_mem _ hl0, hml⟩
    | cons c cs =>
      rcases List.mem_cons.mp h with h | h
      · exact Or.inr ⟨c :: cs, by simp, h⟩
      · exact Or.inl (List.mem_cons_of_mem _ h)

theorem lstripLead_head (M : List (List Char)) (h : ∀ m ∈ M, pyRstrip m = m) :
    lstripLead M = [] ∨
      ∃ c rest ls, lstripLead M = (c :: rest) :: ls ∧ pyIsSpace c = false := by
  induction M with
  | nil => exact Or.inl rfl
  | cons l M' ih =>
    cases l with
    | nil => exact ih (fun x hx => h x (List.mem_cons_of_mem _ hx))
    | cons c0 cs =>
      have hlr := h (c0 :: cs) (by simp)
      have hne : pyLstrip (c0 :: cs) ≠ [] :=
        pyLstrip_ne_nil_of_rstripped _ hlr (by simp)
      obtain ⟨c, rest, hcr, hcs⟩ := pyLstrip_head_not_space _ hne
      refine Or.inr ⟨c, rest, M', ?_, hcs⟩
      show pyLstrip (c0 :: cs) :: M' = (c :: rest) :: M'
      rw [hcr]

theorem lstripLead_getLast (M : List (List Char)) (m : List Char)
    (h : ∀ x ∈ M, pyRstrip x = x) (hlast : M.getLast? = some m) (hm : m ≠ []) :
    ∃ m2, (lstripLead M).getLast? = some m2 ∧ m2 ≠ [] ∧ pyRstrip m2 = m2 := by
  induction M with
  | nil => simp at hlast
  | cons l M' ih =>
    cases M' with
    | nil =>
      simp only [List.getLast?_singleton, Option.some.injEq] at hlast
      subst hlast
      cases l with
      | nil => exact absurd rfl hm
      | cons c cs =>
        have hlr := h (c :: cs) (by simp)
        have hne := pyLstrip_ne_nil_of_rstripped _ hlr (List.cons_ne_nil c cs)
        refine ⟨pyLstrip (c :: cs), ?_, hne, pyRstrip_pyLstrip _ hlr⟩
        show ([pyLstrip (c :: cs)] : List (List Char)).getLast? = some (pyLstrip (c :: cs))
        rw [List.getLast?_singleton]
    | cons m2 M'' =>
      have hlast' : (m2 :: M'').getLast? = some m := by
        rw [← hlast, List.getLast?_cons_cons]
      cases l with
      | nil =>
        exact ih (fun x hx => h x (List.mem_cons_of_mem _ hx)) hlast'
      | cons c cs =>
        have hmem : m ∈ (c :: cs) :: m2 :: M'' := mem_of_getLast? hlast
        refine ⟨m, ?_, hm, h m hmem⟩
        show ((pyLstrip (c :: cs)) :: m2 :: M'').getLast? = some m
        rw [List.getLast?_cons_cons]
        exact hlast'

/-- Python's `.strip()` on the joined right-stripped lines equals
dropping trailing blank lines, dropping leading blank lines and
left-stripping the first survivor. -/
theorem pyStrip_joinNl (L : List (List Char))
    (h : ∀ m ∈ L, pyRstrip m = m ∧ '\n' ∉ m) :
    pyStrip (joinNl L) = joinNl (lstripLead (dropTrailEmpty L)) := by
  unfold pyStrip
  rw [pyRstrip_joinNl L h, pyLstrip_joinNl (dropTrailEmpty L)
    (fun m hm => h m (mem_dropTrailEmpty L m hm))]

/-- The lines produced by the formatter pipeline are right-stripped
and contain no newline. -/
theorem formatLines_prop (z : List Char) :
    ∀ m ∈ (pySplitlines z).map pyRstrip, pyRstrip m = m ∧ '\n' ∉ m := by
  intro m hm
  obtain ⟨m0, hm0, hrfl⟩ := List.mem_map.mp hm
  subst hrfl
  refine ⟨pyRstrip_idem m0, ?_⟩
  intro hnl
  have hin := mem_pyRstrip m0 '\n' hnl
  have hb := pySplitlines_no_break z m0 hm0 '\n' hin
  exact absurd hb (by decide)

theorem map_pyRstrip_self (M : List (List Char)) (h : ∀ m ∈ M, pyRstrip m = m) :
    M.map pyRstrip = M := by
  induction M with
  | nil => rfl
  | cons m M' ih =>
    rw [List.map_cons, h m (by simp), ih (fun x hx => h x (List.mem_cons_of_mem _ hx))]

/-- `simple_auto_format` computed line-wise: it equals the claimed
pipeline plus the extra left-strip of the first surviving line. -/
theorem simple_auto_format_eq_amended (code : String) :
    simple_auto_format code = amendedFormat code := by
  unfold simple_auto_format amendedFormat
  rw [pyStrip_joinNl _ (formatLines_prop (replaceTabs code.data))]

/-- A text of the shape `joinNl M ++ "\n"` with canonical lines is a
fixed point of the formatter. -/
theorem format_fixed (M : List (List Char))
    (hprop : ∀ m ∈ M, pyRstrip m = m ∧ '\t' ∉ m ∧ ∀ c ∈ m, isLineBreak c = false)
    (hhead : M = [] ∨ ∃ c rest ls, M = (c :: rest) :: ls ∧ pyIsSpace c = false)
    (hlast : M = [] ∨ ∃ m, M.getLast? = some m ∧ m ≠ []) :
    simple_auto_format (String.mk (joinNl M ++ ['\n'])) = String.mk (joinNl M ++ ['\n']) := by
  rcases M with - | ⟨m1, M'⟩
  · rfl
  · have hMne : (m1 :: M') ≠ ([] : List (List Char)) := by simp
    have hnotab : '\t' ∉ joinNl (m1 :: M') ++ ['\n'] := by
      intro hx
      rcases List.mem_append.mp hx with hx | hx
      · rcases mem_joinNl _ _ hx with hx | ⟨m, hm, hcm⟩
        · exact absurd hx (by decide)
        · exact (hprop m hm).2.1 hcm
      · rw [List.mem_singleton] at hx
        exact absurd hx (by decide)
    have honly : ∀ c ∈ joinNl (m1 :: M'), isLineBreak c = true → c = '\n' := by
      intro c hc hb
      rcases mem_joinNl _ _ hc with hx | ⟨m, hm, hcm⟩
      · exact hx
      · rw [(hprop m hm).2.2 c hcm] at hb
        cases hb
    have hnonl : ∀ m ∈ (m1 :: M'), '\n' ∉ m := by
      intro m hm hx
      have hb := (hprop m hm).2.2 '\n' hx
      exact absurd hb (by decide)
    unfold simple_auto_format
    congr 1
    rw [replaceTabs_eq_self _ hnotab, pySplitlines_append_nl _ honly,
      splitOnNl_joinNl _ hMne hnonl, map_pyRstrip_self _ (fun m hm => (hprop m hm).1)]
    congr 1
    unfold pyStrip
    rcases hlast with hx | ⟨mL, hmL, hmLne⟩
    · simp at hx
    · obtain ⟨hjne, hjlast⟩ := joinNl_getLast _ mL hmL hmLne
      have hmLr : pyRstrip mL = mL := (hprop mL (mem_of_getLast? hmL)).1
      obtain ⟨cl, hcl, hcls⟩ := pyRstrip_last_not_space mL (by rw [hmLr]; exact hmLne)
      rw [hmLr] at hcl
      rw [pyRstrip_eq_self_of_last _ cl (by rw [hjlast]; exact hcl) hcls]
      rcases hhead with hx | ⟨ch, rest, ls, hsh, hchs⟩
      · simp at hx
      · apply pyLstrip_eq_self_of_head
        intro d hd
        have hhd : (joinNl ((ch :: rest) :: ls)).head? = some ch := by
          cases ls with
          | nil => rfl
          | cons a as =>
            rw [joinNl_cons _ _ (by simp), List.head?_append_of_ne_nil _ (by simp)]
            rfl
        rw [hsh, hhd] at hd
        injection hd with hd
        subst hd
        exact hchs

/-- The lines of the amended pipeline are canonical: right-stripped,
tab-free and line-break-free. -/
theorem amendedLines_prop (z : List Char) (hz : '\t' ∉ z) :
    ∀ m ∈ lstripLead (dropTrailEmpty ((pySplitlines z).map pyRstrip)),
      pyRstrip m = m ∧ '\t' ∉ m ∧ ∀ c ∈ m, isLineBreak c = false := by
  have base : ∀ x ∈ (pySplitlines z).map pyRstrip,
      pyRstrip x = x ∧ '\t' ∉ x ∧ ∀ c ∈ x, isLineBreak c = false := by
    intro x hx
    obtain ⟨x0, hx0, hrfl⟩ := List.mem_map.mp hx
    subst hrfl
    refine ⟨pyRstrip_idem x0, ?_, ?_⟩
    · intro ht
      exact hz (pySplitlines_mem z x0 hx0 '\t' (mem_pyRstrip x0 '\t' ht))
    · intro c hc
      exact pySplitlines_no_break z x0 hx0 c (mem_pyRstrip x0 c hc)
  intro m hm
  rcases mem_lstripLead _ m hm with hmem | ⟨l0, hl0, hml⟩
  · exact base m (mem_dropTrailEmpty _ m hmem)
  · have hb := base l0 (mem_dropTrailEmpty _ l0 hl0)
    subst hml
    refine ⟨pyRstrip_pyLstrip l0 hb.1, ?_, ?_⟩
    · intro ht
      exact hb.2.1 ((List.dropWhile_suffix pyIsSpace).subset ht)
    · intro c hc
      exact hb.2.2 c ((List.dropWhile_suffix pyIsSpace).subset hc)

theorem pyStrip_getLast_not_space (w : List Char) (c : Char)
    (h : (pyStrip w).getLast? = some c) : pyIsSpace c = false := by
  by_cases hz : pyStrip w = []
  · rw [hz] at h
    cases h
  · unfold pyStrip at hz h
    have hy : pyRstrip w ≠ [] := fun hx => hz (by rw [hx]; rfl)
    obtain ⟨c0, hc0, hc0s⟩ := pyRstrip_last_not_space _ hy
    obtain ⟨pre, hpre⟩ : pyLstrip (pyRstrip w) <:+ pyRstrip w :=
      List.dropWhile_suffix pyIsSpace
    rw [← hpre, List.getLast?_append_of_ne_nil pre hz] at hc0
    rw [h] at hc0
    injection hc0 with hc0
    rw [← hc0] at hc0s
    exact hc0s

/-- The formatter output is `z ++ "\n"` where `z` does not end in a
newline: exactly one trailing newline. -/
theorem format_trailing (code : String) :
    ∃ z, (simple_auto_format code).data = z ++ ['\n'] ∧ z.getLast? ≠ some '\n' := by
  refine ⟨_, rfl, ?_⟩
  intro hx
  have hs := pyStrip_getLast_not_space _ '\n' hx
  exact absurd hs (by decide)

/-- The formatter output contains no tab character. -/
theorem format_no_tab (code : String) : '\t' ∉ (simple_auto_format code).data := by
  intro h
  rcases List.mem_append.mp h with h | h
  · have h1 := mem_pyStrip _ _ h
    rcases mem_joinNl _ _ h1 with h2 | ⟨m, hm, hcm⟩
    · exact absurd h2 (by decide)
    · obtain ⟨m0, hm0, hrfl⟩ := List.mem_map.mp hm
      subst hrfl
      exact replaceTabs_no_tab code.data
        (pySplitlines_mem _ m0 hm0 '\t' (mem_pyRstrip m0 '\t' hcm))
  · rw [List.mem_singleton] at h
    exact absurd h (by decide)

/-- The formatter is idempotent. -/
theorem format_idem (x : String) :
    simple_auto_format (simple_auto_format x) = simple_auto_format x := by
  rw [simple_auto_format_eq_amended x]
  unfold amendedFormat
  apply format_fixed
  · exact amendedLines_prop (replaceTabs x.data) (replaceTabs_no_tab x.data)
  · exact lstripLead_head _ (fun m hm => (formatLines_prop _ m (mem_dropTrailEmpty _ m hm)).1)
  · rcases dropTrailEmpty_getLast ((pySplitlines (replaceTabs x.data)).map pyRstrip) with
      hx | ⟨m, hm, hmne⟩
    · rw [hx]
      exact Or.inl rfl
    · right
      obtain ⟨m2, h1, h2, -⟩ := lstripLead_getLast _ m
        (fun xx hxx => (formatLines_prop _ xx (mem_dropTrailEmpty _ xx hxx)).1) hm hmne
      exact ⟨m2, h1, h2⟩

/-! ## Claims about the normalizer -/

/-- Counterexample to claim C3 as stated: on the input `"  x"` (no
blank lines, no tabs, no trailing whitespace) the claimed behaviour
keeps the leading indentation, but `simple_auto_format` strips it —
Python's `.strip()` removes leading whitespace characters, not just
blank lines. -/
theorem claim_C3_counterexample :
    simple_auto_format ("  x") = ("x\n") ∧
    claimedFormat ("  x") = ("  x\n") ∧
    simple_auto_format ("  x") ≠ claimedFormat ("  x") := by
  refine ⟨by decide, by decide, by decide⟩

/-- Claim C3 as amended: tabs become four spaces, every line is
right-stripped, leading blank lines are dropped, the leading whitespace
of the first surviving line is also stripped, trailing blank lines are
dropped, and exactly one trailing newline is appended; total, and the
empty input yields a single newline. -/
theorem claim_C3_amended (code : String) :
    simple_auto_format code = amendedFormat code ∧
    simple_auto_format ("") = ("\n") ∧
    (∃ z, (simple_auto_format code).data = z ++ ['\n'] ∧ z.getLast? ≠ some '\n') :=
  ⟨simple_auto_format_eq_amended code, rfl, format_trailing code⟩

/-- Claim C4: the normalizer is idempotent, its output ends with
exactly one trailing newline, and its output contains no tab. -/
theorem claim_C4 (x : String) :
    simple_auto_format (simple_auto_format x) = simple_auto_format x ∧
    (∃ z, (simple_auto_format x).data = z ++ ['\n'] ∧ z.getLast? ≠ some '\n') ∧
    '\t' ∉ (simple_auto_format x).data :=
  ⟨format_idem x, format_trailing x, format_no_tab x⟩

/-! ## Claims about the lint engine: the stub-function check -/

theorem startsWithPassB_iff (s : List Char) :
    startsWithPassB s = true ↔
      ∃ post, s = 'p' :: 'a' :: 's' :: 's' :: post ∧
        (∀ c, post.head? = some c → isWordChar c = false) := by
  unfold startsWithPassB
  rw [Bool.and_eq_true]
  constructor
  · rintro ⟨hpre, hb⟩
    rw [List.isPrefixOf_iff_prefix] at hpre
    obtain ⟨post, hpost⟩ := hpre
    have hdrop : s.drop 4 = post := by
      rw [← hpost]
      rfl
    refine ⟨post, by rw [← hpost]; rfl, ?_⟩
    intro c hc
    rw [hdrop] at hb
    cases post with
    | nil => cases hc
    | cons d rest =>
      injection hc with hc
      subst hc
      simpa using hb
  · rintro ⟨post, hs, hb⟩
    subst hs
    refine ⟨?_, ?_⟩
    · rw [List.isPrefixOf_iff_prefix]
      exact ⟨post, rfl⟩
    · rw [show ('p' :: 'a' :: 's' :: 's' :: post).drop 4 = post from rfl]
      cases post with
      | nil => rfl
      | cons d rest => simpa using hb d rfl

theorem matchNlPass_iff (s : List Char) (seen : Bool) :
    matchNlPass seen s = true ↔
      ∃ ws t, s = ws ++ t ∧ (∀ c ∈ ws, pyIsSpace c = true) ∧
        ('\n' ∈ ws ∨ seen = true) ∧ startsWithPassB t = true := by
  induction s generalizing seen with
  | nil =>
    rw [show matchNlPass seen [] = false from rfl]
    constructor
    · intro h
      cases h
    · rintro ⟨ws, t, hs, -, -, ht⟩
      rcases List.append_eq_nil.mp hs.symm with ⟨-, ht0⟩
      subst ht0
      rw [show startsWithPassB [] = false from rfl] at ht
      cases ht
  | cons c rest ih =>
    rw [matchNlPass, Bool.or_eq_true, Bool.and_eq_true, Bool.and_eq_true]
    constructor
    · rintro (⟨hseen, hpass⟩ | ⟨hsp, hrec⟩)
      · exact ⟨[], c :: rest, rfl, by simp, Or.inr hseen, hpass⟩
      · obtain ⟨ws, t, hs, hws, hnl, ht⟩ := (ih _).mp hrec
        refine ⟨c :: ws, t, by rw [List.cons_append, hs], ?_, ?_, ht⟩
        · intro d hd
          rcases List.mem_cons.mp hd with hd | hd
          · subst hd
            exact hsp
          · exact hws d hd
        · rcases hnl with hnl | hseen2
          · exact Or.inl (List.mem_cons_of_mem _ hnl)
          · rw [Bool.or_eq_true] at hseen2
            rcases hseen2 with h2 | h2
            · exact Or.inr h2
            · rw [beq_iff_eq] at h2
              exact Or.inl (by rw [h2]; simp)
    · rintro ⟨ws, t, hs, hws, hnl, ht⟩
      cases ws with
      | nil =>
        rcases hnl with hnl | hseen
        · simp at hnl
        · rw [List.nil_append] at hs
          exact Or.inl ⟨hseen, hs ▸ ht⟩
      | cons w ws' =>
        rw [List.cons_append] at hs
        injection hs with h1 h2
        subst h1
        right
        refine ⟨hws c (by simp), (ih _).mpr ⟨ws', t, h2, ?_, ?_, ht⟩⟩
        · intro d hd
          exact hws d (List.mem_cons_of_mem _ hd)
        · rcases hnl with hnl | hseen
          · rcases List.mem_cons.mp hnl with hnl | hnl
            · refine Or.inr ?_
              rw [Bool.or_eq_true, beq_iff_eq]
              exact Or.inr hnl.symm
            · exact Or.inl hnl
          · refine Or.inr ?_
            rw [Bool.or_eq_true]
            exact Or.inl hseen

theorem matchAfterParen_iff (s : List Char) :
    matchAfterParen s = true ↔
      ∃ inner r2, s = inner ++ ')' :: ':' :: r2 ∧ (∀ c ∈ inner, c ≠ ')') ∧
        matchNlPass false r2 = true := by
  unfold matchAfterParen
  constructor
  · intro h
    rcases hd : s.dropWhile (fun d => d != ')') with - | ⟨a, r⟩
    · rw [hd] at h
      cases h
    · rw [hd] at h
      rcases r with - | ⟨b, r2⟩
      · cases h
      · have hsplit := by
          simpa [Bool.and_eq_true, beq_iff_eq] using h
        obtain ⟨⟨ha, hb⟩, hm⟩ := hsplit
        subst ha
        subst hb
        refine ⟨s.takeWhile (fun d => d != ')'), r2, ?_, ?_, hm⟩
        · conv_lhs => rw [← List.takeWhile_append_dropWhile (fun d => d != ')') s]
          rw [hd]
        · intro c hc
          simpa using List.mem_takeWhile_imp hc
  · rintro ⟨inner, r2, hs, hin, hm⟩
    subst hs
    rw [dropWhile_append_all _ inner _ (fun c hc => by simpa using hin c hc)]
    rw [List.dropWhile_cons, if_neg (by simp)]
    simpa using hm

theorem matchDotsOpen_iff (s : List Char) (ge1 : Bool) :
    matchDotsOpen ge1 s = true ↔
      ∃ d t, s = d ++ '(' :: t ∧ (∀ c ∈ d, c ≠ '\n') ∧ (d ≠ [] ∨ ge1 = true) ∧
        matchAfterParen t = true := by
  induction s generalizing ge1 with
  | nil =>
    rw [show matchDotsOpen ge1 [] = false from rfl]
    constructor
    · intro h
      cases h
    · rintro ⟨d, t, hs, -, -, -⟩
      exact absurd hs.symm (by simp)
  | cons c rest ih =>
    rw [matchDotsOpen]
    simp only [Bool.or_eq_true, Bool.and_eq_true]
    constructor
    · rintro (⟨⟨hge, hc⟩, hm⟩ | ⟨hcn, hrec⟩)
      · rw [beq_iff_eq] at hc
        subst hc
        exact ⟨[], rest, rfl, by simp, Or.inr hge, hm⟩
      · obtain ⟨d, t, hs, hd, hne, hm⟩ := (ih _).mp hrec
        refine ⟨c :: d, t, by rw [List.cons_append, hs], ?_, Or.inl (by simp), hm⟩
        intro e he
        rcases List.mem_cons.mp he with he | he
        · subst he
          simpa using hcn
        · exact hd e he
    · rintro ⟨d, t, hs, hd, hne, hm⟩
      cases d with
      | nil =>
        rw [List.nil_append] at hs
        injection hs with h1 h2
        subst h1
        subst h2
        rcases hne with hne | hge
        · exact absurd rfl hne
        · exact Or.inl ⟨⟨hge, by simp⟩, hm⟩
      | cons e d' =>
        rw [List.cons_append] at hs
        injection hs with h1 h2
        subst h1
        right
        refine ⟨by simpa using hd c (by simp), (ih true).mpr ⟨d', t, h2, ?_, Or.inr rfl, hm⟩⟩
        intro x hx
        exact hd x (List.mem_cons_of_mem _ hx)

theorem matchSpacesDots_iff (s : List Char) (ge1 : Bool) :
    matchSpacesDots ge1 s = true ↔
      ∃ w t, s = w ++ t ∧ (∀ c ∈ w, pyIsSpace c = true) ∧ (w ≠ [] ∨ ge1 = true) ∧
        matchDotsOpen false t = true := by
  induction s generalizing ge1 with
  | nil =>
    rw [show matchSpacesDots ge1 [] = false from rfl]
    constructor
    · intro h
      cases h
    · rintro ⟨w, t, hs, -, hne, hm⟩
      rcases List.append_eq_nil.mp hs.symm with ⟨-, ht0⟩
      subst ht0
      rw [show matchDotsOpen false [] = false from rfl] at hm
      cases hm
  | cons c rest ih =>
    rw [matchSpacesDots, Bool.or_eq_true, Bool.and_eq_true, Bool.and_eq_true]
    constructor
    · rintro (⟨hge, hm⟩ | ⟨hsp, hrec⟩)
      · exact ⟨[], c :: rest, rfl, by simp, Or.inr hge, hm⟩
      · obtain ⟨w, t, hs, hw, hne, hm⟩ := (ih _).mp hrec
        refine ⟨c :: w, t, by rw [List.cons_append, hs], ?_, Or.inl (by simp), hm⟩
        intro d hd
        rcases List.mem_cons.mp hd with hd | hd
        · subst hd
          exact hsp
        · exact hw d hd
    · rintro ⟨w, t, hs, hw, hne, hm⟩
      cases w with
      | nil =>
        rw [List.nil_append] at hs
        rcases hne with hne | hge
        · exact absurd rfl hne
        · exact Or.inl ⟨hge, hs ▸ hm⟩
      | cons x w' =>
        rw [List.cons_append] at hs
        injection hs with h1 h2
        subst h1
        right
        exact ⟨hw c (by simp), (ih true).mpr
          ⟨w', t, h2, fun d hd => hw d (List.mem_cons_of_mem _ hd), Or.inr rfl, hm⟩⟩

theorem stubSearch_iff (s : List Char) :
    stubSearch s = true ↔
      ∃ pre t, s = pre ++ 'd' :: 'e' :: 'f' :: t ∧ matchSpacesDots false t = true := by
  induction s with
  | nil =>
    rw [show stubSearch [] = false from rfl]
    constructor
    · intro h
      cases h
    · rintro ⟨pre, t, hs, -⟩
      exact absurd hs.symm (by simp)
  | cons c rest ih =>
    rw [stubSearch, Bool.or_eq_true, Bool.and_eq_true]
    constructor
    · rintro (⟨hpre, hm⟩ | hrec)
      · rw [List.isPrefixOf_iff_prefix] at hpre
        obtain ⟨t, ht⟩ := hpre
        rw [List.cons_append, List.cons_append, List.cons_append, List.nil_append] at ht
        injection ht.symm with h1 h2
        subst h1
        refine ⟨[], t, ?_, ?_⟩
        · rw [List.nil_append, h2]
        · have hdrop : rest.drop 2 = t := by
            rw [h2]
            rfl
          rw [← hdrop]
          exact hm
      · obtain ⟨pre, t, hs, hm⟩ := ih.mp hrec
        exact ⟨c :: pre, t, by rw [List.cons_append, hs], hm⟩
    · rintro ⟨pre, t, hs, hm⟩
      cases pre with
      | nil =>
        rw [List.nil_append] at hs
        injection hs with h1 h2
        subst h1
        left
        refine ⟨?_, ?_⟩
        · rw [List.isPrefixOf_iff_prefix]
          refine ⟨t, ?_⟩
          rw [List.cons_append, List.cons_append, List.cons_append, List.nil_append, h2]
        · rw [show rest.drop 2 = t from by rw [h2]; rfl]
          exact hm
      | cons e pre' =>
        rw [List.cons_append] at hs
        injection hs with h1 h2
        subst h1
        exact Or.inr (ih.mpr ⟨pre', t, h2, hm⟩)

/-- The operational matcher agrees with the declarative reading of the
stub regex. -/
theorem stubSearch_iff_StubPattern (s : List Char) :
    stubSearch s = true ↔ StubPattern s := by
  rw [stubSearch_iff]
  unfold StubPattern
  constructor
  · rintro ⟨pre, t, hs, hm⟩
    obtain ⟨w, t2, ht, hw, hwne, hdots⟩ := (matchSpacesDots_iff t false).mp hm
    obtain ⟨d, t3, ht2, hd, hdne, hparen⟩ := (matchDotsOpen_iff t2 false).mp hdots
    obtain ⟨inner, r2, ht3, hin, hnlp⟩ := (matchAfterParen_iff t3).mp hparen
    obtain ⟨ws, t4, hr2, hws, hnl, hpass⟩ := (matchNlPass_iff r2 false).mp hnlp
    obtain ⟨post, ht4, hbound⟩ := (startsWithPassB_iff t4).mp hpass
    have hwne2 : w ≠ [] := by
      rcases hwne with h | h
      · exact h
      · cases h
    have hdne2 : d ≠ [] := by
      rcases hdne with h | h
      · exact h
      · cases h
    have hnl2 : '\n' ∈ ws := by
      rcases hnl with h | h
      · exact h
      · cases h
    refine ⟨pre, w, d, inner, ws, post, ?_, hwne2, hw, hdne2, hd, hin, hws, hnl2, hbound⟩
    subst hs
    subst ht
    subst ht2
    subst ht3
    subst hr2
    subst ht4
    simp only [List.append_assoc, List.cons_append, List.nil_append]
  · rintro ⟨pre, w, d, inner, ws, post, hs, hwne, hw, hdne, hd, hin, hws, hnl, hbound⟩
    refine ⟨pre, w ++ (d ++ ('(' :: (inner ++ (')' :: ':' ::
      (ws ++ ('p' :: 'a' :: 's' :: 's' :: post)))))), ?_, ?_⟩
    · subst hs
      simp only [List.append_assoc, List.cons_append, List.nil_append]
    · apply (matchSpacesDots_iff _ false).mpr
      refine ⟨w, _, rfl, hw, Or.inl hwne, ?_⟩
      apply (matchDotsOpen_iff _ false).mpr
      refine ⟨d, _, rfl, hd, Or.inl hdne, ?_⟩
      apply (matchAfterParen_iff _).mpr
      refine ⟨inner, _, rfl, hin, ?_⟩
      apply (matchNlPass_iff _ false).mpr
      refine ⟨ws, _, rfl, hws, Or.inl hnl, ?_⟩
      exact (startsWithPassB_iff _).mpr ⟨post, rfl, hbound⟩

/-- Membership in an `if`-guarded singleton block of the findings list. -/
theorem mem_ite_singleton (c : Prop) [Decidable c] (a b : String) :
    (a ∈ if c then [b] else []) ↔ c ∧ a = b := by
  split_ifs with h
  · simp [h]
  · simp [h]

/-- Counterexample to claim C7 as stated, in both directions of the
`iff`: a function whose body has further statements after an initial
`pass` still triggers the finding, and a one-line `def f(): pass` —
whose entire body is a single `pass` — does not trigger it (the regex
requires a newline before `pass`). -/
theorem claim_C7_counterexample :
    ("Stub functions detected; implement or document TODOs.")
        ∈ lint_like_findings ("def f():\n    pass\n    x = 1\n") ∧
    (∀ p ∈ scanDefs ("def f():\n    pass\n    x = 1\n"), normBody p.2 ≠ ("pass")) ∧
    ("Stub functions detected; implement or document TODOs.")
        ∉ lint_like_findings ("def f(): pass") ∧
    (∃ p ∈ scanDefs ("def f(): pass"), normBody p.2 = ("pass")) := by
  refine ⟨by decide, by decide, by decide, by decide⟩

/-- Claim C7 as amended: the stub finding fires exactly when the text
contains `def`, whitespace, a non-empty run of non-newline characters,
`(`, a run of non-`)` characters, then `):`, whitespace containing at
least one newline, and `pass` at a word boundary — i.e. the first
statement line after a def header starts with `pass`, regardless of any
further statements in the body. -/
theorem claim_C7_amended (code : String) :
    ("Stub functions detected; implement or document TODOs.")
        ∈ lint_like_findings code ↔ StubPattern code.data := by
  rw [← stubSearch_iff_StubPattern]
  unfold lint_like_findings
  simp only [List.mem_append, mem_ite_singleton]
  have h1 : ("Stub functions detected; implement or document TODOs.")
      ≠ ("Use spaces instead of tabs (PEP 8).") := by decide
  have h2 : ("Stub functions detected; implement or document TODOs.")
      ≠ ("Prefer `logging` over bare `print` for production code.") := by decide
  have h3 : ("Stub functions detected; implement or document TODOs.")
      ≠ ("Avoid bare `except: pass`; catch specific exceptions and handle them.") := by decide
  have h4 : ("Stub functions detected; implement or document TODOs.")
      ≠ ("Use `is None` / `is not None` instead of `== None`.") := by decide
  have h6 : ("Stub functions detected; implement or document TODOs.")
      ≠ ("Some lines exceed 120 characters; consider wrapping.") := by decide
  have h7 : ("Stub functions detected; implement or document TODOs.")
      ≠ ("Trailing whitespace found; remove for clean diffs.") := by decide
  simp [h1, h2, h3, h4, h6, h7]
